import Mathlib

/-!
Shallow embedding of the core of the `OrderBook` repository:
the order book (`src/orderbook/src/orderbook/book/order_book.cpp`),
the matching engine (`src/src/orderbook/engine/matching_engine.cpp`),
and the SPSC ring buffer (`src/include/orderbook/queue/spsc_queue.hpp`).

Modelling conventions:
* `core::Price` and `core::Quantity` are `std::int64_t`; they are modelled as
  `Int` (no arithmetic path in the embedded code can overflow 64 bits on the
  inputs the claims quantify over: the only arithmetic is subtraction of a
  `min` of two present values).
* `core::OrderId` is `std::uint64_t`, modelled as `Nat` (no arithmetic on it).
* Timestamps (`arrivalTs`, trade `ts`) are threaded by the C++ code but never
  branched on; they are omitted.
* `std::map<Price, std::deque<Order>, cmp>` is modelled as an association list
  sorted by the comparator, best level first, exactly as `begin()` iterates.
* `std::unordered_map` (the locator index) is modelled as an association list;
  `emplace` inserts only when the key is absent, `erase` removes the entry.
* The locator's position handle (`std::deque<Order>::iterator it`) designates,
  while valid, a fixed element of the level's deque; element removal is
  modelled as removal of the element so designated, identified by its
  (unique) `orderId`.  (C++ invalidates these iterators on `emplace_back`
  and on mid-deque `erase`; see the analysis of claim C8.)
-/

namespace OB

inductive Side where
  | Buy
  | Sell
deriving DecidableEq, Repr

inductive OrderType where
  | Limit
  | Market
deriving DecidableEq, Repr

/-- `ob::core::Order` (types.hpp), minus the timestamp and `symbolId`,
neither of which the embedded code branches on. -/
structure Order where
  orderId : Nat
  side : Side
  type : OrderType
  price : Int
  quantity : Int
deriving DecidableEq, Repr

/-- `ob::core::Trade` (types.hpp), minus the timestamp. -/
structure Trade where
  makerId : Nat
  takerId : Nat
  price : Int
  quantity : Int
deriving DecidableEq, Repr

/-- The events the matching engine publishes (`event_types.hpp`);
`CancelAck`/`CancelReject` are never emitted by any embedded code path. -/
inductive Event where
  | ack (orderId : Nat)
  | trade (orderId : Nat) (t : Trade)
  | reject (orderId : Nat)
deriving DecidableEq, Repr

/-- One price level: `std::deque<core::Order>`, front first. -/
abbrev Level := List Order

/-- `OrderBook::OrderLocator` minus the iterator handle (see the header
comment: the handle is modelled by the designated element's identity). -/
structure Locator where
  side : Side
  price : Int
deriving DecidableEq, Repr

/-- `ob::book::OrderBook`: `bids_` sorted descending (best bid first),
`asks_` sorted ascending (best ask first), `locators_`. -/
structure Book where
  bids : List (Int × Level)
  asks : List (Int × Level)
  locators : List (Nat × Locator)
deriving DecidableEq, Repr

def Book.emptyBook : Book := ⟨[], [], []⟩

/-- Lookup of a price level in a side's level list (`map::find`). -/
def lvlFind : List (Int × Level) → Int → Option Level
  | [], _ => none
  | (q, dq) :: rest, p => if q = p then some dq else lvlFind rest p

/-- Replace the level stored at key `p` (in-place mutation of the mapped
deque through a `map` iterator). -/
def lvlUpdate : List (Int × Level) → Int → Level → List (Int × Level)
  | [], _, _ => []
  | (q, dq) :: rest, p, dq2 =>
    if q = p then (p, dq2) :: rest else (q, dq) :: lvlUpdate rest p dq2

/-- Delete the level at key `p` (`map::erase`). -/
def lvlErase : List (Int × Level) → Int → List (Int × Level)
  | [], _ => []
  | (q, dq) :: rest, p =>
    if q = p then lvlErase rest p else (q, dq) :: lvlErase rest p

/-- `bids_[price]` / `asks_[price]` followed by `emplace_back(order)`:
walk the comparator-sorted list to the order's level (creating it at the
sorted position if absent, as `std::map::operator[]` does) and append the
order at the tail.  `prec p q = true` means key `p` sorts strictly before
key `q` (`std::greater` for bids, `std::less` for asks). -/
def insertLevel (prec : Int → Int → Bool) : List (Int × Level) → Int → Order → List (Int × Level)
  | [], p, o => [(p, [o])]
  | (q, dq) :: rest, p, o =>
    if prec p q then (p, [o]) :: (q, dq) :: rest
    else if q = p then (q, dq ++ [o]) :: rest
    else (q, dq) :: insertLevel prec rest p o

def bidPrec (p q : Int) : Bool := q < p

def askPrec (p q : Int) : Bool := p < q

/-- `locators_.find(id)` (`std::unordered_map`, unique keys). -/
def locFind : List (Nat × Locator) → Nat → Option Locator
  | [], _ => none
  | (k, l) :: rest, id => if k = id then some l else locFind rest id

/-- `locators_.emplace(id, l)`: inserts only when `id` is absent. -/
def locEmplace (locs : List (Nat × Locator)) (id : Nat) (l : Locator) : List (Nat × Locator) :=
  if (locFind locs id).isSome then locs else locs ++ [(id, l)]

/-- `locators_.erase(id)`: removes the entry keyed `id` (keys are unique in
an `unordered_map`; on the lists built here they stay unique). -/
def locErase (locs : List (Nat × Locator)) (id : Nat) : List (Nat × Locator) :=
  locs.filter (fun kv => kv.1 != id)

/-- `dq.erase(loc.it)`: removes the element the locator's iterator
designates, i.e. the resting order with that (unique) id. -/
def eraseById : Level → Nat → Level
  | [], _ => []
  | o :: rest, id => if o.orderId = id then rest else o :: eraseById rest id

/-- `OrderBook::addOrder` (order_book.cpp lines 9-49). -/
def Book.addOrder (b : Book) (o : Order) : Bool × Book :=
  if o.type = OrderType.Limit ∧ o.price ≤ 0 then (false, b)
  else if o.quantity ≤ 0 then (false, b)
  else if o.side = Side.Buy then
    (true, { b with
      bids := insertLevel bidPrec b.bids o.price o,
      locators := locEmplace b.locators o.orderId ⟨o.side, o.price⟩ })
  else
    (true, { b with
      asks := insertLevel askPrec b.asks o.price o,
      locators := locEmplace b.locators o.orderId ⟨o.side, o.price⟩ })

/-- `OrderBook::cancelOrder` (order_book.cpp lines 51-77).  The locator is
erased before the level lookup, exactly as in the source. -/
def Book.cancelOrder (b : Book) (id : Nat) : Bool × Book :=
  match locFind b.locators id with
  | none => (false, b)
  | some loc =>
    let locs := locErase b.locators id
    if loc.side = Side.Buy then
      match lvlFind b.bids loc.price with
      | none => (false, { b with locators := locs })
      | some dq =>
        let dq2 := eraseById dq id
        if dq2.isEmpty then
          (true, { b with bids := lvlErase b.bids loc.price, locators := locs })
        else
          (true, { b with bids := lvlUpdate b.bids loc.price dq2, locators := locs })
    else
      match lvlFind b.asks loc.price with
      | none => (false, { b with locators := locs })
      | some dq =>
        let dq2 := eraseById dq id
        if dq2.isEmpty then
          (true, { b with asks := lvlErase b.asks loc.price, locators := locs })
        else
          (true, { b with asks := lvlUpdate b.asks loc.price dq2, locators := locs })

/-- `OrderBook::eraseFrontAtLevel` (order_book.cpp lines 79-99): pops the
head of the level only when its id matches, and erases that locator.  Note
that, faithfully to the source, an emptied level is NOT deleted here. -/
def Book.eraseFrontAtLevel (b : Book) (side : Side) (price : Int) (expectedId : Nat) : Book :=
  if side = Side.Buy then
    match lvlFind b.bids price with
    | none => b
    | some dq =>
      match dq with
      | [] => b
      | o :: rest =>
        if o.orderId = expectedId then
          { b with bids := lvlUpdate b.bids price rest,
                   locators := locErase b.locators expectedId }
        else b
  else
    match lvlFind b.asks price with
    | none => b
    | some dq =>
      match dq with
      | [] => b
      | o :: rest =>
        if o.orderId = expectedId then
          { b with asks := lvlUpdate b.asks price rest,
                   locators := locErase b.locators expectedId }
        else b

/-- `MatchingEngine::canMatch` (matching_engine.cpp lines 18-22). -/
def canMatch (takerSide : Side) (takerPrice makerPrice : Int) (t : OrderType) : Bool :=
  if t = OrderType.Market then true
  else if takerSide = Side.Buy then decide (makerPrice ≤ takerPrice)
  else decide (takerPrice ≤ makerPrice)

/-- Result of the inner fill loop over one price level. -/
structure LevelFill where
  taker : Order
  level : Level
  trades : List Trade
  removed : List Nat
deriving Repr

/-- The inner `while (order.quantity > 0 && !dq.empty())` loop of
`MatchingEngine::process` (matching_engine.cpp lines 66-91 / 97-122) on one
price level: repeatedly fill against the head (FIFO), record a trade at the
maker's resting price, and pop the head (erasing its locator, via
`eraseFrontAtLevel`) the moment its quantity reaches zero.  A maker left
with nonzero quantity means the taker was exhausted, so the source loop
exits; on a book in which a level's orders carry the level's own price
(which `addOrder` establishes), `eraseFrontAtLevel(side, maker.price, ...)`
pops exactly this level's head, as modelled here. -/
def matchLevel (taker : Order) : Level → LevelFill
  | [] => ⟨taker, [], [], []⟩
  | maker :: rest =>
    if 0 < taker.quantity then
      let tradeQty := min taker.quantity maker.quantity
      let t : Trade := ⟨maker.orderId, taker.orderId, maker.price, tradeQty⟩
      let taker1 : Order := { taker with quantity := taker.quantity - tradeQty }
      if maker.quantity - tradeQty = 0 then
        let r := matchLevel taker1 rest
        ⟨r.taker, r.level, t :: r.trades, maker.orderId :: r.removed⟩
      else
        ⟨taker1, { maker with quantity := maker.quantity - tradeQty } :: rest, [t], []⟩
    else ⟨taker, maker :: rest, [], []⟩

/-- Result of the outer loop over the contra side's levels. -/
structure SideFill where
  taker : Order
  contra : List (Int × Level)
  trades : List Trade
  removed : List Nat
deriving Repr

/-- The outer `while (order.quantity > 0 && !contra.empty())` loop of
`MatchingEngine::process`: take the best contra level, stop if it is not
marketable, fill against it, and delete the level if it was emptied. -/
def matchSide (taker : Order) : List (Int × Level) → SideFill
  | [] => ⟨taker, [], [], []⟩
  | (p, dq) :: rest =>
    if 0 < taker.quantity ∧ canMatch taker.side taker.price p taker.type then
      let r := matchLevel taker dq
      if r.level.isEmpty then
        let s := matchSide r.taker rest
        ⟨s.taker, s.contra, r.trades ++ s.trades, r.removed ++ s.removed⟩
      else
        ⟨r.taker, (p, r.level) :: rest, r.trades, r.removed⟩
    else ⟨taker, (p, dq) :: rest, [], []⟩

/-- Erase the locators of the makers removed during matching (each
`eraseFrontAtLevel` call erased one as it happened). -/
def removeLocs : List (Nat × Locator) → List Nat → List (Nat × Locator)
  | locs, [] => locs
  | locs, id :: rest => removeLocs (locErase locs id) rest

/-- What `MatchingEngine::process` returns and publishes:
the trade vector, the events pushed to the publisher (in publish order),
the book after the call, and the incoming order's final (residual) state. -/
structure ProcResult where
  trades : List Trade
  events : List Event
  book : Book
  residual : Order
deriving Repr

/-- `MatchingEngine::process` (matching_engine.cpp lines 31-136), on the
production wiring in which the book pointer is the concrete `OrderBook`
(never null — the null-book Reject branch is unreachable there) and the
event publisher is present.  Publishes Ack, matches against the contra
side, then drops a Market residual, or rests a Limit residual via
`addOrder` whose boolean result the source discards. -/
def process (b : Book) (o : Order) : ProcResult :=
  if o.side = Side.Buy then
    let s := matchSide o b.asks
    let b1 : Book := { b with asks := s.contra, locators := removeLocs b.locators s.removed }
    let evts := Event.ack o.orderId :: s.trades.map (fun t => Event.trade o.orderId t)
    if s.taker.type = OrderType.Market then
      ⟨s.trades, evts, b1, { s.taker with quantity := 0 }⟩
    else if 0 < s.taker.quantity ∧ s.taker.type = OrderType.Limit then
      ⟨s.trades, evts, (b1.addOrder s.taker).2, s.taker⟩
    else
      ⟨s.trades, evts, b1, s.taker⟩
  else
    let s := matchSide o b.bids
    let b1 : Book := { b with bids := s.contra, locators := removeLocs b.locators s.removed }
    let evts := Event.ack o.orderId :: s.trades.map (fun t => Event.trade o.orderId t)
    if s.taker.type = OrderType.Market then
      ⟨s.trades, evts, b1, { s.taker with quantity := 0 }⟩
    else if 0 < s.taker.quantity ∧ s.taker.type = OrderType.Limit then
      ⟨s.trades, evts, (b1.addOrder s.taker).2, s.taker⟩
    else
      ⟨s.trades, evts, b1, s.taker⟩

/-! ### SPSC ring buffer (`spsc_queue.hpp`) -/

/-- The `while (p < n) p <<= 1;` loop of `SpscRingBuffer::normalizeCapacity`
(spsc_queue.hpp lines 91-97).  The running power `p` is carried as `p1` with
`p = p1 + 1` so that the recursion is well-founded for every argument
(`p` starts at 1 and doubles: `2*(p1+1) = (2*p1+1)+1`). -/
def normLoopAux (n : Nat) (p1 : Nat) : Nat :=
  if p1 + 1 < n then normLoopAux n (2 * p1 + 1) else p1 + 1
termination_by n - p1
decreasing_by omega

/-- `SpscRingBuffer::normalizeCapacity`: clamp the request to at least 2,
then round up to a power of two. -/
def normalizeCapacity (n : Nat) : Nat :=
  normLoopAux (if n < 2 then 2 else n) 0

/-- `ob::queue::SpscRingBuffer<T>` state: `capacity_`, `mask_`, `head_`,
`tail_`, and the `Node` array (a constructed slot holds `some v`).
Single-threaded state; the claims settled here are about the sequential
push/pop contract, not the cross-thread ordering. -/
structure SpscRing (α : Type) where
  capacity : Nat
  mask : Nat
  head : Nat
  tail : Nat
  storage : List (Option α)
deriving Repr

/-- The ring constructor: capacity normalized, all slots empty. -/
def mkRing (α : Type) (n : Nat) : SpscRing α :=
  let c := normalizeCapacity n
  ⟨c, c - 1, 0, 0, List.replicate c none⟩

/-- `SpscRingBuffer::tryPush` (spsc_queue.hpp lines 41-48). -/
def tryPush (r : SpscRing α) (v : α) : Bool × SpscRing α :=
  let next := (r.head + 1) &&& r.mask
  if next = r.tail then (false, r)
  else (true, { r with storage := r.storage.set r.head (some v), head := next })

/-- `SpscRingBuffer::tryPop` (spsc_queue.hpp lines 59-66): extract the slot
at `tail` (returning it to the empty state) and advance `tail`. -/
def tryPop (r : SpscRing α) : Bool × SpscRing α × Option α :=
  if r.tail = r.head then (false, r, none)
  else
    (true,
     { r with storage := r.storage.set r.tail none, tail := (r.tail + 1) &&& r.mask },
     r.storage.getD r.tail none)

/-- `SpscRingBuffer::capacity()`: the usable capacity `capacity_ - 1`. -/
def usableCapacity (r : SpscRing α) : Nat := r.capacity - 1

/-- A sequence of `tryPush` calls, returning each call's result. -/
def pushAll (r : SpscRing α) : List α → List Bool × SpscRing α
  | [] => ([], r)
  | v :: rest =>
    let pr := tryPush r v
    let prs := pushAll pr.2 rest
    (pr.1 :: prs.1, prs.2)

/-! ### Observable state predicates -/

/-- The ids of the orders resting in one level, front first. -/
def levelIds (dq : Level) : List Nat := dq.map Order.orderId

/-- The ids of all orders resting on one side, best level first. -/
def sideIds (ls : List (Int × Level)) : List Nat :=
  (ls.map (fun pl => levelIds pl.2)).flatten

/-- The ids of all orders resting in the book. -/
def bookIds (b : Book) : List Nat := sideIds b.bids ++ sideIds b.asks

/-- The order `o` rests somewhere in the book. -/
def restingIn (b : Book) (o : Order) : Prop :=
  (∃ pl ∈ b.bids, o ∈ pl.2) ∨ (∃ pl ∈ b.asks, o ∈ pl.2)

/-- The side map an order of side `s` rests on. -/
def sideLevels (b : Book) : Side → List (Int × Level)
  | Side.Buy => b.bids
  | Side.Sell => b.asks

/-- The contra side an incoming order of side `s` matches against. -/
def contraLevels (b : Book) : Side → List (Int × Level)
  | Side.Buy => b.asks
  | Side.Sell => b.bids

/-- Level lookup on the side an order of side `s` rests on. -/
def lvlFindSide (b : Book) (s : Side) (p : Int) : Option Level :=
  lvlFind (sideLevels b s) p

/-- No empty price level is retained on either side. -/
def noEmptyLevels (b : Book) : Prop :=
  (∀ pl ∈ b.bids, pl.2 ≠ ([] : Level)) ∧ (∀ pl ∈ b.asks, pl.2 ≠ ([] : Level))

/-- Every order resting in `ls` has strictly positive quantity, and strictly
positive price when it is a Limit. -/
def posLevels (ls : List (Int × Level)) : Prop :=
  ∀ pl ∈ ls, ∀ o ∈ pl.2, 0 < o.quantity ∧ (o.type = OrderType.Limit → 0 < o.price)

/-- The positivity invariant of the whole book (claim C10). -/
def posBook (b : Book) : Prop := posLevels b.bids ∧ posLevels b.asks

/-- A side's level list is sorted by the comparator, best level first
(the `std::map` representation invariant). -/
def sortedPrec (prec : Int → Int → Bool) (ls : List (Int × Level)) : Prop :=
  ls.Pairwise (fun a b => prec a.1 b.1 = true)

/-- The comparator of the side an order of side `s` rests on. -/
def precOf : Side → Int → Int → Bool
  | Side.Buy => bidPrec
  | Side.Sell => askPrec

/-- Book states reachable from the empty book through the four mutating
operations (claims C7/C10 quantify over these). -/
inductive Reach : Book → Prop where
  | base : Reach Book.emptyBook
  | add (b : Book) (o : Order) : Reach b → Reach (b.addOrder o).2
  | cancel (b : Book) (id : Nat) : Reach b → Reach (b.cancelOrder id).2
  | eraseFront (b : Book) (s : Side) (p : Int) (id : Nat) :
      Reach b → Reach (b.eraseFrontAtLevel s p id)
  | proc (b : Book) (o : Order) : Reach b → Reach (process b o).book

instance (b : Book) : Decidable (noEmptyLevels b) := by
  unfold noEmptyLevels
  infer_instance

instance (ls : List (Int × Level)) : Decidable (posLevels ls) := by
  unfold posLevels
  infer_instance

instance (b : Book) : Decidable (posBook b) := by
  unfold posBook
  infer_instance

instance (b : Book) (o : Order) : Decidable (restingIn b o) := by
  unfold restingIn
  infer_instance

instance (prec : Int → Int → Bool) (ls : List (Int × Level)) :
    Decidable (sortedPrec prec ls) := by
  unfold sortedPrec
  infer_instance

/-! ### Structural lemmas about the inner fill loop -/

theorem matchLevel_taker_fields (tk : Order) (dq : Level) :
    (matchLevel tk dq).taker.orderId = tk.orderId ∧
    (matchLevel tk dq).taker.side = tk.side ∧
    (matchLevel tk dq).taker.price = tk.price ∧
    (matchLevel tk dq).taker.type = tk.type := by
  induction dq generalizing tk with
  | nil => simp [matchLevel]
  | cons maker rest ih =>
    simp only [matchLevel]
    by_cases h1 : 0 < tk.quantity
    · by_cases h2 : maker.quantity - min tk.quantity maker.quantity = 0
      · simpa [h1, h2] using ih { tk with quantity := tk.quantity - min tk.quantity maker.quantity }
      · simp [h1, h2]
    · simp [h1]

theorem matchLevel_ids_conserved (tk : Order) (dq : Level) :
    (matchLevel tk dq).removed ++ levelIds (matchLevel tk dq).level = levelIds dq := by
  induction dq generalizing tk with
  | nil => simp [matchLevel, levelIds]
  | cons maker rest ih =>
    simp only [matchLevel]
    by_cases h1 : 0 < tk.quantity
    · by_cases h2 : maker.quantity - min tk.quantity maker.quantity = 0
      · simp only [h1, h2, if_true, if_pos, levelIds, List.map_cons, List.cons_append,
          List.cons.injEq, true_and]
        simpa [levelIds] using
          ih { tk with quantity := tk.quantity - min tk.quantity maker.quantity }
      · simp [h1, h2, levelIds]
    · simp [h1, levelIds]

theorem matchLevel_trade_maker (tk : Order) (dq : Level) :
    ∀ tr ∈ (matchLevel tk dq).trades, ∃ m ∈ dq,
      tr.makerId = m.orderId ∧ tr.price = m.price ∧ tr.takerId = tk.orderId := by
  induction dq generalizing tk with
  | nil => simp [matchLevel]
  | cons maker rest ih =>
    intro tr htr
    simp only [matchLevel] at htr
    by_cases h1 : 0 < tk.quantity
    · by_cases h2 : maker.quantity - min tk.quantity maker.quantity = 0
      · simp only [h1, h2, if_true, if_pos] at htr
        rcases List.mem_cons.mp htr with htr | htr
        · exact ⟨maker, List.mem_cons_self _ _, by simp [htr]⟩
        · rcases ih _ tr htr with ⟨m, hm, hmk, hpx, htk⟩
          exact ⟨m, List.mem_cons_of_mem _ hm, hmk, hpx, htk⟩
      · simp only [h1, h2, if_true, if_neg, if_false, List.mem_singleton] at htr
        exact ⟨maker, List.mem_cons_self _ _, by simp [htr]⟩
    · simp [h1] at htr

theorem matchLevel_trade_pos (tk : Order) (dq : Level)
    (hpos : ∀ o ∈ dq, 0 < o.quantity) :
    ∀ tr ∈ (matchLevel tk dq).trades, 0 < tr.quantity := by
  induction dq generalizing tk with
  | nil => simp [matchLevel]
  | cons maker rest ih =>
    intro tr htr
    have hmk : 0 < maker.quantity := hpos maker (List.mem_cons_self _ _)
    simp only [matchLevel] at htr
    by_cases h1 : 0 < tk.quantity
    · by_cases h2 : maker.quantity - min tk.quantity maker.quantity = 0
      · simp only [h1, h2, if_true, if_pos] at htr
        rcases List.mem_cons.mp htr with htr | htr
        · subst htr; simp only []; omega
        · exact ih _ (fun o ho => hpos o (List.mem_cons_of_mem _ ho)) tr htr
      · simp only [h1, h2, if_true, if_neg, if_false, List.mem_singleton] at htr
        subst htr; simp only []; omega
    · simp [h1] at htr

theorem matchLevel_level_pos (tk : Order) (dq : Level)
    (hpos : ∀ o ∈ dq, 0 < o.quantity ∧ (o.type = OrderType.Limit → 0 < o.price)) :
    ∀ o ∈ (matchLevel tk dq).level, 0 < o.quantity ∧ (o.type = OrderType.Limit → 0 < o.price) := by
  induction dq generalizing tk with
  | nil => simp [matchLevel]
  | cons maker rest ih =>
    intro o ho
    simp only [matchLevel] at ho
    by_cases h1 : 0 < tk.quantity
    · by_cases h2 : maker.quantity - min tk.quantity maker.quantity = 0
      · simp only [h1, h2, if_true, if_pos] at ho
        exact ih _ (fun x hx => hpos x (List.mem_cons_of_mem _ hx)) o ho
      · simp only [h1, h2, if_true, if_neg, if_false] at ho
        rcases List.mem_cons.mp ho with ho | ho
        · subst ho
          refine ⟨?_, ?_⟩
          · simp only []; omega
          · intro ht
            exact (hpos maker (List.mem_cons_self _ _)).2 ht
        · exact hpos o (List.mem_cons_of_mem _ ho)
    · simp only [h1, if_false, if_neg, not_false_iff] at ho
      exact hpos o ho

theorem matchLevel_level_sides (tk : Order) (dq : Level) (s : Side) (p : Int)
    (h : ∀ o ∈ dq, o.side = s ∧ o.price = p) :
    ∀ o ∈ (matchLevel tk dq).level, o.side = s ∧ o.price = p := by
  induction dq generalizing tk with
  | nil => simp [matchLevel]
  | cons maker rest ih =>
    intro o ho
    simp only [matchLevel] at ho
    by_cases h1 : 0 < tk.quantity
    · by_cases h2 : maker.quantity - min tk.quantity maker.quantity = 0
      · simp only [h1, h2, if_true, if_pos] at ho
        exact ih _ (fun x hx => h x (List.mem_cons_of_mem _ hx)) o ho
      · simp only [h1, h2, if_true, if_neg, if_false] at ho
        rcases List.mem_cons.mp ho with ho | ho
        · subst ho
          exact ⟨(h maker (List.mem_cons_self _ _)).1, (h maker (List.mem_cons_self _ _)).2⟩
        · exact h o (List.mem_cons_of_mem _ ho)
    · simp only [h1, if_false, if_neg, not_false_iff] at ho
      exact h o ho

/-! ### Structural lemmas about the outer level loop -/

theorem sideIds_cons (p : Int) (dq : Level) (rest : List (Int × Level)) :
    sideIds ((p, dq) :: rest) = levelIds dq ++ sideIds rest := by
  simp [sideIds]

theorem matchSide_taker_fields (tk : Order) (c : List (Int × Level)) :
    (matchSide tk c).taker.orderId = tk.orderId ∧
    (matchSide tk c).taker.side = tk.side ∧
    (matchSide tk c).taker.price = tk.price ∧
    (matchSide tk c).taker.type = tk.type := by
  induction c generalizing tk with
  | nil => simp [matchSide]
  | cons hd rest ih =>
    rcases hd with ⟨p, dq⟩
    simp only [matchSide]
    by_cases hg : 0 < tk.quantity ∧ canMatch tk.side tk.price p tk.type
    · by_cases he : (matchLevel tk dq).level.isEmpty
      · simp only [hg, he, if_true, if_pos]
        rcases ih (matchLevel tk dq).taker with ⟨h1, h2, h3, h4⟩
        rcases matchLevel_taker_fields tk dq with ⟨g1, g2, g3, g4⟩
        exact ⟨h1.trans g1, h2.trans g2, h3.trans g3, h4.trans g4⟩
      · simp only [hg, he, if_true, if_neg, if_false, Bool.false_eq_true, not_false_iff]
        exact matchLevel_taker_fields tk dq
    · simp [hg]

theorem matchSide_ids_conserved (tk : Order) (c : List (Int × Level)) :
    (matchSide tk c).removed ++ sideIds (matchSide tk c).contra = sideIds c := by
  induction c generalizing tk with
  | nil => simp [matchSide, sideIds]
  | cons hd rest ih =>
    rcases hd with ⟨p, dq⟩
    simp only [matchSide]
    by_cases hg : 0 < tk.quantity ∧ canMatch tk.side tk.price p tk.type
    · by_cases he : (matchLevel tk dq).level.isEmpty
      · simp only [if_pos hg, if_pos he, sideIds_cons]
        have hlvl := matchLevel_ids_conserved tk dq
        have hemp : levelIds (matchLevel tk dq).level = [] := by
          rw [List.isEmpty_iff] at he
          simp [he, levelIds]
        rw [hemp, List.append_nil] at hlvl
        rw [List.append_assoc, ih (matchLevel tk dq).taker, hlvl]
      · simp only [if_pos hg, if_neg he, sideIds_cons]
        rw [← List.append_assoc, matchLevel_ids_conserved tk dq]
    · simp [hg]

theorem matchSide_trade_maker (tk : Order) (c : List (Int × Level)) :
    ∀ tr ∈ (matchSide tk c).trades, ∃ pl ∈ c, ∃ m ∈ pl.2,
      tr.makerId = m.orderId ∧ tr.price = m.price ∧ tr.takerId = tk.orderId := by
  induction c generalizing tk with
  | nil => simp [matchSide]
  | cons hd rest ih =>
    rcases hd with ⟨p, dq⟩
    intro tr htr
    simp only [matchSide] at htr
    by_cases hg : 0 < tk.quantity ∧ canMatch tk.side tk.price p tk.type
    · by_cases he : (matchLevel tk dq).level.isEmpty
      · simp only [hg, he, if_true, if_pos] at htr
        rcases List.mem_append.mp htr with htr | htr
        · rcases matchLevel_trade_maker tk dq tr htr with ⟨m, hm, h1, h2, h3⟩
          exact ⟨(p, dq), List.mem_cons_self _ _, m, hm, h1, h2, h3⟩
        · rcases ih (matchLevel tk dq).taker tr htr with ⟨pl, hpl, m, hm, h1, h2, h3⟩
          exact ⟨pl, List.mem_cons_of_mem _ hpl, m, hm, h1, h2,
            h3.trans (matchLevel_taker_fields tk dq).1⟩
      · simp only [hg, he, if_true, if_neg, if_false, Bool.false_eq_true, not_false_iff] at htr
        rcases matchLevel_trade_maker tk dq tr htr with ⟨m, hm, h1, h2, h3⟩
        exact ⟨(p, dq), List.mem_cons_self _ _, m, hm, h1, h2, h3⟩
    · simp [hg] at htr

theorem matchSide_trade_pos (tk : Order) (c : List (Int × Level))
    (hpos : ∀ pl ∈ c, ∀ o ∈ pl.2, 0 < o.quantity) :
    ∀ tr ∈ (matchSide tk c).trades, 0 < tr.quantity := by
  induction c generalizing tk with
  | nil => simp [matchSide]
  | cons hd rest ih =>
    rcases hd with ⟨p, dq⟩
    intro tr htr
    simp only [matchSide] at htr
    by_cases hg : 0 < tk.quantity ∧ canMatch tk.side tk.price p tk.type
    · by_cases he : (matchLevel tk dq).level.isEmpty
      · simp only [hg, he, if_true, if_pos] at htr
        rcases List.mem_append.mp htr with htr | htr
        · exact matchLevel_trade_pos tk dq
            (fun o ho => hpos (p, dq) (List.mem_cons_self _ _) o ho) tr htr
        · exact ih _ (fun pl hpl o ho => hpos pl (List.mem_cons_of_mem _ hpl) o ho) tr htr
      · simp only [hg, he, if_true, if_neg, if_false, Bool.false_eq_true, not_false_iff] at htr
        exact matchLevel_trade_pos tk dq
          (fun o ho => hpos (p, dq) (List.mem_cons_self _ _) o ho) tr htr
    · simp [hg] at htr

theorem matchSide_posLevels (tk : Order) (c : List (Int × Level))
    (hpos : posLevels c) : posLevels (matchSide tk c).contra := by
  induction c generalizing tk with
  | nil => simpa [matchSide] using hpos
  | cons hd rest ih =>
    rcases hd with ⟨p, dq⟩
    simp only [matchSide]
    by_cases hg : 0 < tk.quantity ∧ canMatch tk.side tk.price p tk.type
    · by_cases he : (matchLevel tk dq).level.isEmpty
      · simp only [hg, he, if_true, if_pos]
        exact ih _ (fun pl hpl => hpos pl (List.mem_cons_of_mem _ hpl))
      · simp only [hg, he, if_true, if_neg, if_false, Bool.false_eq_true, not_false_iff]
        intro pl hpl
        rcases List.mem_cons.mp hpl with hpl | hpl
        · subst hpl
          exact matchLevel_level_pos tk dq
            (fun o ho => hpos (p, dq) (List.mem_cons_self _ _) o ho)
        · exact hpos pl (List.mem_cons_of_mem _ hpl)
    · simpa [hg] using hpos

theorem matchSide_noEmpty (tk : Order) (c : List (Int × Level))
    (h : ∀ pl ∈ c, pl.2 ≠ ([] : Level)) :
    ∀ pl ∈ (matchSide tk c).contra, pl.2 ≠ ([] : Level) := by
  induction c generalizing tk with
  | nil => simp [matchSide]
  | cons hd rest ih =>
    rcases hd with ⟨p, dq⟩
    simp only [matchSide]
    by_cases hg : 0 < tk.quantity ∧ canMatch tk.side tk.price p tk.type
    · by_cases he : (matchLevel tk dq).level.isEmpty
      · simp only [hg, he, if_true, if_pos]
        exact ih _ (fun pl hpl => h pl (List.mem_cons_of_mem _ hpl))
      · simp only [hg, he, if_true, if_neg, if_false, Bool.false_eq_true, not_false_iff]
        intro pl hpl
        rcases List.mem_cons.mp hpl with hpl | hpl
        · subst hpl
          intro hc
          rw [List.isEmpty_iff] at he
          exact (he hc).elim
        · exact h pl (List.mem_cons_of_mem _ hpl)
    · simpa [hg] using h

/-! ### Characterization of `process` in terms of the loops -/

theorem process_trades_eq (b : Book) (o : Order) :
    (process b o).trades = (matchSide o (contraLevels b o.side)).trades := by
  rcases hside : o.side with _ | _ <;>
    (simp only [process, hside, contraLevels, reduceCtorEq, if_true, if_false] <;>
      split <;> first | rfl | (split <;> rfl))

theorem process_events_eq (b : Book) (o : Order) :
    (process b o).events =
      Event.ack o.orderId ::
        (process b o).trades.map (fun t => Event.trade o.orderId t) := by
  rcases hside : o.side with _ | _ <;>
    (simp only [process, hside, contraLevels, reduceCtorEq, if_true, if_false] <;>
      split <;> first | rfl | (split <;> rfl))

theorem process_contra_eq (b : Book) (o : Order) :
    contraLevels (process b o).book o.side = (matchSide o (contraLevels b o.side)).contra := by
  rcases hside : o.side with _ | _
  · have hts : (matchSide o b.asks).taker.side = Side.Buy :=
      (matchSide_taker_fields o b.asks).2.1.trans hside
    simp only [process, hside, contraLevels, reduceCtorEq, if_true, if_false]
    split
    · rfl
    · split
      · simp only [Book.addOrder, hts, reduceCtorEq, eq_self_iff_true, if_true, if_false]
        split
        · rfl
        · split <;> rfl
      · rfl
  · have hts : (matchSide o b.bids).taker.side = Side.Sell :=
      (matchSide_taker_fields o b.bids).2.1.trans hside
    simp only [process, hside, contraLevels, reduceCtorEq, if_true, if_false]
    split
    · rfl
    · split
      · simp only [Book.addOrder, hts, reduceCtorEq, eq_self_iff_true, if_true, if_false]
        split
        · rfl
        · split <;> rfl
      · rfl

/-- Claim C1: every trade produced by `MatchingEngine::process` (and every
Trade event it publishes) carries the resting maker order's price — the
maker rests in the pre-call book with exactly that price (prices of resting
orders are never mutated, so this is also the price at the moment of the
fill) — and the taker id of the incoming order, never the taker's price
field. -/
theorem C1_trade_price_is_makers_price (b : Book) (o : Order) :
    (∀ tr ∈ (process b o).trades, ∃ m, restingIn b m ∧
      tr.makerId = m.orderId ∧ tr.price = m.price ∧ tr.takerId = o.orderId) ∧
    (∀ id t, Event.trade id t ∈ (process b o).events →
      id = o.orderId ∧ t ∈ (process b o).trades) := by
  constructor
  · intro tr htr
    rw [process_trades_eq] at htr
    rcases matchSide_trade_maker o (contraLevels b o.side) tr htr with
      ⟨pl, hpl, m, hm, h1, h2, h3⟩
    refine ⟨m, ?_, h1, h2, h3⟩
    rcases hside : o.side with _ | _ <;> rw [hside] at hpl
    · exact Or.inr ⟨pl, hpl, hm⟩
    · exact Or.inl ⟨pl, hpl, hm⟩
  · intro id t ht
    rw [process_events_eq] at ht
    rcases List.mem_cons.mp ht with ht | ht
    · exact absurd ht (by simp)
    · rcases List.mem_map.mp ht with ⟨tr, htr, heq⟩
      injection heq with h1 h2
      exact ⟨h1.symm, h2 ▸ htr⟩

/-! ### Locator-list helper lemmas -/

theorem locFind_none_iff (locs : List (Nat × Locator)) (x : Nat) :
    locFind locs x = none ↔ ∀ kv ∈ locs, kv.1 ≠ x := by
  induction locs with
  | nil => simp [locFind]
  | cons kv rest ih =>
    rcases kv with ⟨k, l⟩
    by_cases hk : k = x
    · simp [locFind, hk]
    · simp [locFind, hk, ih]

theorem removeLocs_find_none (ids : List Nat) (locs : List (Nat × Locator)) (x : Nat)
    (h : locFind locs x = none) : locFind (removeLocs locs ids) x = none := by
  induction ids generalizing locs with
  | nil => exact h
  | cons id rest ih =>
    apply ih
    rw [locFind_none_iff] at h ⊢
    intro kv hkv
    exact h kv (List.mem_of_mem_filter hkv)

theorem matchSide_contra_ids_subset (tk : Order) (c : List (Int × Level)) :
    ∀ x ∈ sideIds (matchSide tk c).contra, x ∈ sideIds c := by
  intro x hx
  rw [← matchSide_ids_conserved tk c]
  exact List.mem_append_right _ hx

/-- On a Market order, `process` leaves the taker's own side untouched,
updates the contra side to the loop's result, erases the consumed makers'
locators, and zeroes the residual (matching_engine.cpp lines 125-129). -/
theorem process_market_book (b : Book) (o : Order) (hM : o.type = OrderType.Market) :
    (process b o).book =
      (if o.side = Side.Buy then
        { b with asks := (matchSide o b.asks).contra,
                 locators := removeLocs b.locators (matchSide o b.asks).removed }
       else
        { b with bids := (matchSide o b.bids).contra,
                 locators := removeLocs b.locators (matchSide o b.bids).removed }) ∧
    (process b o).residual.quantity = 0 := by
  rcases hside : o.side with _ | _
  · have ht : (matchSide o b.asks).taker.type = OrderType.Market :=
      (matchSide_taker_fields o b.asks).2.2.2.trans hM
    simp only [process, hside, reduceCtorEq, if_true, if_false, ht]
    constructor <;> first | trivial | rfl
  · have ht : (matchSide o b.bids).taker.type = OrderType.Market :=
      (matchSide_taker_fields o b.bids).2.2.2.trans hM
    simp only [process, hside, reduceCtorEq, if_true, if_false, ht]
    constructor <;> first | trivial | rfl

/-- Claim C3: a Market order never rests: after `process` its residual
quantity is zero, no entry for its id is in the book or the locator index
(given the spec's id-uniqueness protocol: the id was not already present),
and nothing beyond the Ack and the Trade events is published — the unfilled
remainder is silently dropped. -/
theorem C3_market_orders_never_rest (b : Book) (o : Order)
    (hM : o.type = OrderType.Market)
    (hBook : o.orderId ∉ bookIds b)
    (hLoc : locFind b.locators o.orderId = none) :
    (process b o).residual.quantity = 0 ∧
    o.orderId ∉ bookIds (process b o).book ∧
    locFind (process b o).book.locators o.orderId = none ∧
    (process b o).events =
      Event.ack o.orderId :: (process b o).trades.map (fun t => Event.trade o.orderId t) := by
  rcases process_market_book b o hM with ⟨hbk, hres⟩
  refine ⟨hres, ?_, ?_, process_events_eq b o⟩
  · rw [hbk]
    rcases hside : o.side with _ | _
    · simp only [reduceCtorEq, if_true, if_false, bookIds]
      intro hmem
      rcases List.mem_append.mp hmem with hmem | hmem
      · exact hBook (List.mem_append_left _ hmem)
      · exact hBook (List.mem_append_right _ (matchSide_contra_ids_subset o b.asks _ hmem))
    · simp only [reduceCtorEq, if_true, if_false, bookIds]
      intro hmem
      rcases List.mem_append.mp hmem with hmem | hmem
      · exact hBook (List.mem_append_left _ (matchSide_contra_ids_subset o b.bids _ hmem))
      · exact hBook (List.mem_append_right _ hmem)
  · rw [hbk]
    rcases hside : o.side with _ | _ <;>
      simp only [reduceCtorEq, if_true, if_false] <;>
      exact removeLocs_find_none _ _ _ hLoc

/-! ### Level-map insertion lemmas -/

theorem lvlFind_none_iff (ls : List (Int × Level)) (p : Int) :
    lvlFind ls p = none ↔ ∀ e ∈ ls, e.1 ≠ p := by
  induction ls with
  | nil => simp [lvlFind]
  | cons e rest ih =>
    rcases e with ⟨q, dq⟩
    by_cases hq : q = p
    · simp [lvlFind, hq]
    · simp [lvlFind, hq, ih]

theorem insertLevel_find_other (prec : Int → Int → Bool) (ls : List (Int × Level))
    (p : Int) (o : Order) (q : Int) (hq : q ≠ p) :
    lvlFind (insertLevel prec ls p o) q = lvlFind ls q := by
  induction ls with
  | nil => simp [insertLevel, lvlFind, Ne.symm hq]
  | cons e rest ih =>
    rcases e with ⟨q0, dq⟩
    simp only [insertLevel]
    by_cases h1 : prec p q0
    · rw [if_pos h1, lvlFind, if_neg (Ne.symm hq)]
    · rw [if_neg h1]
      by_cases h2 : q0 = p
      · subst h2
        rw [if_pos rfl, lvlFind, if_neg (Ne.symm hq), lvlFind, if_neg (Ne.symm hq)]
      · rw [if_neg h2, lvlFind, lvlFind]
        by_cases h3 : q0 = q
        · rw [if_pos h3, if_pos h3]
        · rw [if_neg h3, if_neg h3]
          exact ih

theorem insertLevel_find_self (prec : Int → Int → Bool)
    (htrans : ∀ a b c, prec a b = true → prec b c = true → prec a c = true)
    (hirr : ∀ a, prec a a = false)
    (ls : List (Int × Level)) (p : Int) (o : Order)
    (hs : sortedPrec prec ls) :
    lvlFind (insertLevel prec ls p o) p = some ((lvlFind ls p).getD [] ++ [o]) := by
  induction ls with
  | nil => simp [insertLevel, lvlFind]
  | cons e rest ih =>
    rcases e with ⟨q0, dq⟩
    rw [sortedPrec, List.pairwise_cons] at hs
    simp only [insertLevel]
    by_cases h1 : prec p q0
    · have hq0 : q0 ≠ p := by
        intro h
        subst h
        rw [hirr] at h1
        exact Bool.false_ne_true h1
      have hnone : lvlFind ((q0, dq) :: rest) p = none := by
        rw [lvlFind_none_iff]
        intro e he
        rcases List.mem_cons.mp he with he | he
        · rw [he]
          exact hq0
        · intro hep
          have := htrans p q0 e.1 h1 (hs.1 e he)
          rw [← hep] at this
          rw [hirr] at this
          exact Bool.false_ne_true this
      rw [hnone, if_pos h1]
      simp [lvlFind]
    · rw [if_neg h1]
      by_cases h2 : q0 = p
      · subst h2
        rw [if_pos rfl]
        simp [lvlFind]
      · rw [if_neg h2, lvlFind, if_neg h2, lvlFind, if_neg h2]
        exact ih hs.2

theorem locFind_append_self (locs : List (Nat × Locator)) (id : Nat) (l : Locator)
    (h : locFind locs id = none) : locFind (locs ++ [(id, l)]) id = some l := by
  induction locs with
  | nil => simp [locFind]
  | cons kv rest ih =>
    rcases kv with ⟨k, l0⟩
    by_cases hk : k = id
    · rw [locFind, if_pos hk] at h
      exact absurd h (by simp)
    · rw [List.cons_append, locFind, if_neg hk]
      apply ih
      rwa [locFind, if_neg hk] at h

theorem locFind_none_count_zero (locs : List (Nat × Locator)) (id : Nat)
    (h : locFind locs id = none) : (locs.map Prod.fst).count id = 0 := by
  rw [locFind_none_iff] at h
  rw [List.count_eq_zero]
  intro hmem
  rcases List.mem_map.mp hmem with ⟨kv, hkv, hfst⟩
  exact h kv hkv hfst

theorem bidPrec_trans : ∀ a b c : Int, bidPrec a b = true → bidPrec b c = true → bidPrec a c = true := by
  intro a b c h1 h2
  simp only [bidPrec, decide_eq_true_eq] at h1 h2 ⊢
  omega

theorem bidPrec_irr : ∀ a : Int, bidPrec a a = false := by
  intro a
  simp [bidPrec]

theorem askPrec_trans : ∀ a b c : Int, askPrec a b = true → askPrec b c = true → askPrec a c = true := by
  intro a b c h1 h2
  simp only [askPrec, decide_eq_true_eq] at h1 h2 ⊢
  omega

theorem askPrec_irr : ∀ a : Int, askPrec a a = false := by
  intro a
  simp [askPrec]

/-- Shared helper: an accepting `addOrder` appends the order at the tail of
its `(side, price)` level (creating the level at its sorted position when
absent) and touches no other level and not the contra side. -/
theorem addOrder_level_shape (b : Book) (o : Order)
    (hsorted : sortedPrec (precOf o.side) (sideLevels b o.side))
    (hacc : (b.addOrder o).1 = true) :
    lvlFindSide (b.addOrder o).2 o.side o.price =
      some ((lvlFindSide b o.side o.price).getD [] ++ [o]) ∧
    (∀ q, q ≠ o.price → lvlFindSide (b.addOrder o).2 o.side q = lvlFindSide b o.side q) ∧
    contraLevels (b.addOrder o).2 o.side = contraLevels b o.side ∧
    (b.addOrder o).2.locators = locEmplace b.locators o.orderId ⟨o.side, o.price⟩ := by
  by_cases hv1 : o.type = OrderType.Limit ∧ o.price ≤ 0
  · rw [Book.addOrder, if_pos hv1] at hacc
    exact absurd hacc (by simp)
  · by_cases hv2 : o.quantity ≤ 0
    · rw [Book.addOrder, if_neg hv1, if_pos hv2] at hacc
      exact absurd hacc (by simp)
    · rcases hside : o.side with _ | _
      · have hb : (b.addOrder o).2 = { b with
            bids := insertLevel bidPrec b.bids o.price o,
            locators := locEmplace b.locators o.orderId ⟨o.side, o.price⟩ } := by
          rw [Book.addOrder, if_neg hv1, if_neg hv2, if_pos hside]
        rw [hb]
        rw [hside] at hsorted ⊢
        simp only [sideLevels, precOf] at hsorted
        refine ⟨?_, ?_, rfl, rfl⟩
        · simp only [lvlFindSide, sideLevels]
          exact insertLevel_find_self bidPrec bidPrec_trans bidPrec_irr b.bids o.price o hsorted
        · intro q hq
          simp only [lvlFindSide, sideLevels]
          exact insertLevel_find_other bidPrec b.bids o.price o q hq
      · have hb : (b.addOrder o).2 = { b with
            asks := insertLevel askPrec b.asks o.price o,
            locators := locEmplace b.locators o.orderId ⟨o.side, o.price⟩ } := by
          rw [Book.addOrder, if_neg hv1, if_neg hv2, if_neg (by rw [hside]; simp)]
        rw [hb]
        rw [hside] at hsorted ⊢
        simp only [sideLevels, precOf] at hsorted
        refine ⟨?_, ?_, rfl, rfl⟩
        · simp only [lvlFindSide, sideLevels]
          exact insertLevel_find_self askPrec askPrec_trans askPrec_irr b.asks o.price o hsorted
        · intro q hq
          simp only [lvlFindSide, sideLevels]
          exact insertLevel_find_other askPrec b.asks o.price o q hq

/-- Claim C5: `OrderBook::addOrder` returns false and leaves the book
unchanged exactly on a Limit order with non-positive price or any order
with non-positive quantity; an accepting call returns true, appends the
order at the tail of its `(side, price)` level (creating it if absent,
changing nothing else), and — with the id fresh, per the spec's uniqueness
protocol — inserts exactly one locator entry keyed by the order id. -/
theorem C5_addOrder_contract (b : Book) (o : Order)
    (hsorted : sortedPrec (precOf o.side) (sideLevels b o.side))
    (hfresh : locFind b.locators o.orderId = none) :
    ((b.addOrder o).1 = false ↔ (o.type = OrderType.Limit ∧ o.price ≤ 0) ∨ o.quantity ≤ 0) ∧
    ((b.addOrder o).1 = false → (b.addOrder o).2 = b) ∧
    ((b.addOrder o).1 = true →
      lvlFindSide (b.addOrder o).2 o.side o.price =
        some ((lvlFindSide b o.side o.price).getD [] ++ [o]) ∧
      (∀ q, q ≠ o.price → lvlFindSide (b.addOrder o).2 o.side q = lvlFindSide b o.side q) ∧
      contraLevels (b.addOrder o).2 o.side = contraLevels b o.side ∧
      locFind (b.addOrder o).2.locators o.orderId = some ⟨o.side, o.price⟩ ∧
      ((b.addOrder o).2.locators.map Prod.fst).count o.orderId = 1) := by
  have hrej : (b.addOrder o).1 = false ↔
      (o.type = OrderType.Limit ∧ o.price ≤ 0) ∨ o.quantity ≤ 0 := by
    by_cases hv1 : o.type = OrderType.Limit ∧ o.price ≤ 0
    · simp [Book.addOrder, hv1]
    · by_cases hv2 : o.quantity ≤ 0
      · simp [Book.addOrder, hv1, hv2]
      · rcases hside : o.side with _ | _ <;>
          simp [Book.addOrder, hv1, hv2, hside]
  refine ⟨hrej, ?_, ?_⟩
  · intro hf
    rcases hrej.mp hf with hv | hv
    · rw [Book.addOrder, if_pos hv]
    · by_cases hv1 : o.type = OrderType.Limit ∧ o.price ≤ 0
      · rw [Book.addOrder, if_pos hv1]
      · rw [Book.addOrder, if_neg hv1, if_pos hv]
  · intro hacc
    rcases addOrder_level_shape b o hsorted hacc with ⟨h1, h2, h3, h4⟩
    refine ⟨h1, h2, h3, ?_, ?_⟩
    · rw [h4, locEmplace, if_neg (by rw [hfresh]; simp)]
      exact locFind_append_self b.locators o.orderId ⟨o.side, o.price⟩ hfresh
    · rw [h4, locEmplace, if_neg (by rw [hfresh]; simp)]
      rw [List.map_append, List.count_append]
      rw [locFind_none_count_zero b.locators o.orderId hfresh]
      simp

/-! ### Cancel-path helper lemmas -/

theorem lvlFind_lvlErase_self (ls : List (Int × Level)) (p : Int) :
    lvlFind (lvlErase ls p) p = none := by
  induction ls with
  | nil => simp [lvlErase, lvlFind]
  | cons e rest ih =>
    rcases e with ⟨q, dq⟩
    by_cases hq : q = p
    · simpa [lvlErase, hq] using ih
    · simpa [lvlErase, hq, lvlFind] using ih

theorem lvlFind_lvlErase_other (ls : List (Int × Level)) (p q : Int) (hq : q ≠ p) :
    lvlFind (lvlErase ls p) q = lvlFind ls q := by
  induction ls with
  | nil => simp [lvlErase]
  | cons e rest ih =>
    rcases e with ⟨q0, dq⟩
    by_cases h0 : q0 = p
    · subst h0
      rw [lvlErase, if_pos rfl, lvlFind, if_neg (Ne.symm hq)]
      exact ih
    · rw [lvlErase, if_neg h0, lvlFind, lvlFind]
      by_cases h1 : q0 = q
      · rw [if_pos h1, if_pos h1]
      · rw [if_neg h1, if_neg h1]
        exact ih

theorem lvlFind_lvlUpdate_self (ls : List (Int × Level)) (p : Int) (dq0 dq2 : Level)
    (h : lvlFind ls p = some dq0) :
    lvlFind (lvlUpdate ls p dq2) p = some dq2 := by
  induction ls with
  | nil => simp [lvlFind] at h
  | cons e rest ih =>
    rcases e with ⟨q, dq⟩
    by_cases hq : q = p
    · rw [lvlUpdate, if_pos hq, lvlFind, if_pos rfl]
    · rw [lvlFind, if_neg hq] at h
      rw [lvlUpdate, if_neg hq, lvlFind, if_neg hq]
      exact ih h

theorem lvlFind_lvlUpdate_other (ls : List (Int × Level)) (p q : Int) (dq2 : Level)
    (hq : q ≠ p) :
    lvlFind (lvlUpdate ls p dq2) q = lvlFind ls q := by
  induction ls with
  | nil => simp [lvlUpdate]
  | cons e rest ih =>
    rcases e with ⟨q0, dq⟩
    by_cases h0 : q0 = p
    · subst h0
      rw [lvlUpdate, if_pos rfl, lvlFind, if_neg (Ne.symm hq), lvlFind, if_neg (Ne.symm hq)]
    · rw [lvlUpdate, if_neg h0, lvlFind, lvlFind]
      by_cases h1 : q0 = q
      · rw [if_pos h1, if_pos h1]
      · rw [if_neg h1, if_neg h1]
        exact ih

theorem levelIds_eraseById (dq : Level) (id : Nat) :
    levelIds (eraseById dq id) = (levelIds dq).erase id := by
  induction dq with
  | nil => simp [eraseById, levelIds]
  | cons o rest ih =>
    by_cases ho : o.orderId = id
    · simp [eraseById, ho, levelIds, List.erase_cons_head]
    · rw [eraseById, if_neg ho]
      simp only [levelIds, List.map_cons]
      rw [List.erase_cons_tail (by simpa using ho)]
      congr 1

theorem locFind_locErase_self (locs : List (Nat × Locator)) (id : Nat) :
    locFind (locErase locs id) id = none := by
  rw [locFind_none_iff]
  intro kv hkv
  have := List.of_mem_filter hkv
  simpa using this

theorem locFind_locErase_other (locs : List (Nat × Locator)) (id x : Nat) (hx : x ≠ id) :
    locFind (locErase locs id) x = locFind locs x := by
  induction locs with
  | nil => simp [locErase]
  | cons kv rest ih =>
    rcases kv with ⟨k, l⟩
    by_cases hk : k = id
    · subst hk
      have : locErase ((k, l) :: rest) k = locErase rest k := by
        simp [locErase]
      rw [this, locFind, if_neg (by omega)]
      exact ih
    · have : locErase ((k, l) :: rest) id = (k, l) :: locErase rest id := by
        simp [locErase, hk]
      rw [this, locFind, locFind]
      by_cases h1 : k = x
      · rw [if_pos h1, if_pos h1]
      · rw [if_neg h1, if_neg h1]
        exact ih

/-- Claim C6: `OrderBook::cancelOrder` returns false and leaves the book
unchanged when no locator entry exists for the id; when a locator exists
(and, as the book invariant guarantees, its level does too) it returns
true, removes exactly the order with that id from the level, deletes the
locator entry, deletes the level the moment it became empty, and changes
nothing else; a second cancel of the same id then returns false and is a
no-op. -/
theorem C6_cancelOrder_contract (b : Book) (id : Nat) :
    (locFind b.locators id = none → b.cancelOrder id = (false, b)) ∧
    (∀ loc dq, locFind b.locators id = some loc →
      lvlFindSide b loc.side loc.price = some dq →
      (b.cancelOrder id).1 = true ∧
      lvlFindSide (b.cancelOrder id).2 loc.side loc.price =
        (if eraseById dq id = [] then none else some (eraseById dq id)) ∧
      levelIds (eraseById dq id) = (levelIds dq).erase id ∧
      (∀ q, q ≠ loc.price →
        lvlFindSide (b.cancelOrder id).2 loc.side q = lvlFindSide b loc.side q) ∧
      contraLevels (b.cancelOrder id).2 loc.side = contraLevels b loc.side ∧
      locFind (b.cancelOrder id).2.locators id = none ∧
      (∀ x, x ≠ id → locFind (b.cancelOrder id).2.locators x = locFind b.locators x) ∧
      (b.cancelOrder id).2.cancelOrder id = (false, (b.cancelOrder id).2)) := by
  constructor
  · intro hnone
    rw [Book.cancelOrder, hnone]
  · intro loc dq hloc hdq
    rcases hside : loc.side with _ | _
    · rw [hside] at hdq
      simp only [lvlFindSide, sideLevels] at hdq
      have hred : b.cancelOrder id =
          (if (eraseById dq id).isEmpty then
            (true, { b with bids := lvlErase b.bids loc.price,
                            locators := locErase b.locators id })
          else
            (true, { b with bids := lvlUpdate b.bids loc.price (eraseById dq id),
                            locators := locErase b.locators id })) := by
        simp only [Book.cancelOrder, hloc, hside, hdq, reduceCtorEq, if_true, if_false]
      by_cases hemp : (eraseById dq id).isEmpty
      · have hnil : eraseById dq id = [] := by rwa [List.isEmpty_iff] at hemp
        rw [hred, if_pos hemp]
        refine ⟨rfl, ?_, levelIds_eraseById dq id, ?_, rfl, ?_, ?_, ?_⟩
        · rw [if_pos hnil]
          simp only [lvlFindSide, sideLevels]
          exact lvlFind_lvlErase_self b.bids loc.price
        · intro q hq
          simp only [lvlFindSide, sideLevels]
          exact lvlFind_lvlErase_other b.bids loc.price q hq
        · exact locFind_locErase_self b.locators id
        · intro x hx
          exact locFind_locErase_other b.locators id x hx
        · simp only [Book.cancelOrder, locFind_locErase_self]
      · have hnil : ¬eraseById dq id = [] := by
          intro h
          rw [h] at hemp
          exact hemp rfl
        rw [hred, if_neg hemp]
        refine ⟨rfl, ?_, levelIds_eraseById dq id, ?_, rfl, ?_, ?_, ?_⟩
        · rw [if_neg hnil]
          simp only [lvlFindSide, sideLevels]
          exact lvlFind_lvlUpdate_self b.bids loc.price dq (eraseById dq id) hdq
        · intro q hq
          simp only [lvlFindSide, sideLevels]
          exact lvlFind_lvlUpdate_other b.bids loc.price q (eraseById dq id) hq
        · exact locFind_locErase_self b.locators id
        · intro x hx
          exact locFind_locErase_other b.locators id x hx
        · simp only [Book.cancelOrder, locFind_locErase_self]
    · rw [hside] at hdq
      simp only [lvlFindSide, sideLevels] at hdq
      have hred : b.cancelOrder id =
          (if (eraseById dq id).isEmpty then
            (true, { b with asks := lvlErase b.asks loc.price,
                            locators := locErase b.locators id })
          else
            (true, { b with asks := lvlUpdate b.asks loc.price (eraseById dq id),
                            locators := locErase b.locators id })) := by
        simp only [Book.cancelOrder, hloc, hside, hdq, reduceCtorEq, if_true, if_false]
      by_cases hemp : (eraseById dq id).isEmpty
      · have hnil : eraseById dq id = [] := by rwa [List.isEmpty_iff] at hemp
        rw [hred, if_pos hemp]
        refine ⟨rfl, ?_, levelIds_eraseById dq id, ?_, rfl, ?_, ?_, ?_⟩
        · rw [if_pos hnil]
          simp only [lvlFindSide, sideLevels]
          exact lvlFind_lvlErase_self b.asks loc.price
        · intro q hq
          simp only [lvlFindSide, sideLevels]
          exact lvlFind_lvlErase_other b.asks loc.price q hq
        · exact locFind_locErase_self b.locators id
        · intro x hx
          exact locFind_locErase_other b.locators id x hx
        · simp only [Book.cancelOrder, locFind_locErase_self]
      · have hnil : ¬eraseById dq id = [] := by
          intro h
          rw [h] at hemp
          exact hemp rfl
        rw [hred, if_neg hemp]
        refine ⟨rfl, ?_, levelIds_eraseById dq id, ?_, rfl, ?_, ?_, ?_⟩
        · rw [if_neg hnil]
          simp only [lvlFindSide, sideLevels]
          exact lvlFind_lvlUpdate_self b.asks loc.price dq (eraseById dq id) hdq
        · intro q hq
          simp only [lvlFindSide, sideLevels]
          exact lvlFind_lvlUpdate_other b.asks loc.price q (eraseById dq id) hq
        · exact locFind_locErase_self b.locators id
        · intro x hx
          exact locFind_locErase_other b.locators id x hx
        · simp only [Book.cancelOrder, locFind_locErase_self]

/-! ### No-empty-level preservation (claim C7) -/

theorem insertLevel_noEmpty (prec : Int → Int → Bool) (ls : List (Int × Level))
    (p : Int) (o : Order) (h : ∀ pl ∈ ls, pl.2 ≠ ([] : Level)) :
    ∀ pl ∈ insertLevel prec ls p o, pl.2 ≠ ([] : Level) := by
  induction ls with
  | nil =>
    intro pl hpl
    rcases List.mem_singleton.mp hpl with rfl
    simp
  | cons e rest ih =>
    rcases e with ⟨q, dq⟩
    intro pl hpl
    simp only [insertLevel] at hpl
    by_cases h1 : prec p q
    · rw [if_pos h1] at hpl
      rcases List.mem_cons.mp hpl with rfl | hpl
      · simp
      · exact h pl hpl
    · rw [if_neg h1] at hpl
      by_cases h2 : q = p
      · rw [if_pos h2] at hpl
        rcases List.mem_cons.mp hpl with rfl | hpl
        · simp
        · exact h pl (List.mem_cons_of_mem _ hpl)
      · rw [if_neg h2] at hpl
        rcases List.mem_cons.mp hpl with rfl | hpl
        · exact h _ (List.mem_cons_self _ _)
        · exact ih (fun x hx => h x (List.mem_cons_of_mem _ hx)) pl hpl

theorem lvlErase_subset (ls : List (Int × Level)) (p : Int) :
    ∀ pl ∈ lvlErase ls p, pl ∈ ls := by
  induction ls with
  | nil => simp [lvlErase]
  | cons e rest ih =>
    rcases e with ⟨q, dq⟩
    intro pl hpl
    simp only [lvlErase] at hpl
    by_cases hq : q = p
    · rw [if_pos hq] at hpl
      exact List.mem_cons_of_mem _ (ih pl hpl)
    · rw [if_neg hq] at hpl
      rcases List.mem_cons.mp hpl with rfl | hpl
      · exact List.mem_cons_self _ _
      · exact List.mem_cons_of_mem _ (ih pl hpl)

theorem lvlUpdate_mem (ls : List (Int × Level)) (p : Int) (dq2 : Level) :
    ∀ pl ∈ lvlUpdate ls p dq2, pl ∈ ls ∨ pl = (p, dq2) := by
  induction ls with
  | nil => simp [lvlUpdate]
  | cons e rest ih =>
    rcases e with ⟨q, dq⟩
    intro pl hpl
    simp only [lvlUpdate] at hpl
    by_cases hq : q = p
    · rw [if_pos hq] at hpl
      rcases List.mem_cons.mp hpl with rfl | hpl
      · exact Or.inr rfl
      · exact Or.inl (List.mem_cons_of_mem _ hpl)
    · rw [if_neg hq] at hpl
      rcases List.mem_cons.mp hpl with rfl | hpl
      · exact Or.inl (List.mem_cons_self _ _)
      · rcases ih pl hpl with h | h
        · exact Or.inl (List.mem_cons_of_mem _ h)
        · exact Or.inr h

theorem addOrder_noEmpty (b : Book) (o : Order) (h : noEmptyLevels b) :
    noEmptyLevels (b.addOrder o).2 := by
  rw [Book.addOrder]
  split
  · exact h
  · split
    · exact h
    · split
      · exact ⟨insertLevel_noEmpty bidPrec b.bids o.price o h.1, h.2⟩
      · exact ⟨h.1, insertLevel_noEmpty askPrec b.asks o.price o h.2⟩

theorem cancelOrder_noEmpty (b : Book) (id : Nat) (h : noEmptyLevels b) :
    noEmptyLevels (b.cancelOrder id).2 := by
  rcases hloc : locFind b.locators id with _ | loc
  · rw [Book.cancelOrder, hloc]
    exact h
  · rcases hside : loc.side with _ | _
    · rcases hdq : lvlFind b.bids loc.price with _ | dq
      · simp only [Book.cancelOrder, hloc, hside, hdq, reduceCtorEq, if_true, if_false]
        exact h
      · by_cases hemp : (eraseById dq id).isEmpty
        · simp only [Book.cancelOrder, hloc, hside, hdq, hemp, reduceCtorEq, if_true, if_false]
          exact ⟨fun pl hpl => h.1 pl (lvlErase_subset b.bids loc.price pl hpl), h.2⟩
        · simp only [Book.cancelOrder, hloc, hside, hdq, reduceCtorEq, if_true, if_false,
            Bool.not_eq_true] at hemp ⊢
          rw [hemp]
          simp only [Bool.false_eq_true, if_false]
          refine ⟨?_, h.2⟩
          intro pl hpl
          rcases lvlUpdate_mem b.bids loc.price (eraseById dq id) pl hpl with hm | hm
          · exact h.1 pl hm
          · rw [hm]
            intro hc
            have hc2 : eraseById dq id = [] := hc
            rw [hc2] at hemp
            simp at hemp
    · rcases hdq : lvlFind b.asks loc.price with _ | dq
      · simp only [Book.cancelOrder, hloc, hside, hdq, reduceCtorEq, if_true, if_false]
        exact h
      · by_cases hemp : (eraseById dq id).isEmpty
        · simp only [Book.cancelOrder, hloc, hside, hdq, hemp, reduceCtorEq, if_true, if_false]
          exact ⟨h.1, fun pl hpl => h.2 pl (lvlErase_subset b.asks loc.price pl hpl)⟩
        · simp only [Book.cancelOrder, hloc, hside, hdq, reduceCtorEq, if_true, if_false,
            Bool.not_eq_true] at hemp ⊢
          rw [hemp]
          simp only [Bool.false_eq_true, if_false]
          refine ⟨h.1, ?_⟩
          intro pl hpl
          rcases lvlUpdate_mem b.asks loc.price (eraseById dq id) pl hpl with hm | hm
          · exact h.2 pl hm
          · rw [hm]
            intro hc
            have hc2 : eraseById dq id = [] := hc
            rw [hc2] at hemp
            simp at hemp

theorem process_noEmpty (b : Book) (o : Order) (h : noEmptyLevels b) :
    noEmptyLevels (process b o).book := by
  rcases hside : o.side with _ | _
  · simp only [process, hside, reduceCtorEq, if_true, if_false]
    split
    · exact ⟨h.1, matchSide_noEmpty o b.asks h.2⟩
    · split
      · exact addOrder_noEmpty _ _ ⟨h.1, matchSide_noEmpty o b.asks h.2⟩
      · exact ⟨h.1, matchSide_noEmpty o b.asks h.2⟩
  · simp only [process, hside, reduceCtorEq, if_true, if_false]
    split
    · exact ⟨matchSide_noEmpty o b.bids h.1, h.2⟩
    · split
      · exact addOrder_noEmpty _ _ ⟨matchSide_noEmpty o b.bids h.1, h.2⟩
      · exact ⟨matchSide_noEmpty o b.bids h.1, h.2⟩

/-- Claim C7, counterexample: `eraseFrontAtLevel` is listed by the claim as
one of the operations after which no empty level may exist, but popping the
only order of a level through it retains the emptied level — the source
deletes emptied levels in `cancelOrder` and in the matching loop, not in
`eraseFrontAtLevel`. -/
theorem C7_counterexample :
    ¬ noEmptyLevels
      ((Book.emptyBook.addOrder ⟨1, Side.Buy, OrderType.Limit, 100, 5⟩).2.eraseFrontAtLevel
        Side.Buy 100 1) := by
  decide

/-- Claim C7 as amended: after `addOrder`, `cancelOrder`, and each complete
`MatchingEngine::process` call, every retained price level holds at least
one order (`eraseFrontAtLevel` alone can leave an empty level behind; its
caller, the matching loop, deletes that level before `process` returns). -/
theorem C7_no_empty_levels_preserved (b : Book) (o : Order) (id : Nat)
    (h : noEmptyLevels b) :
    noEmptyLevels (b.addOrder o).2 ∧
    noEmptyLevels (b.cancelOrder id).2 ∧
    noEmptyLevels (process b o).book :=
  ⟨addOrder_noEmpty b o h, cancelOrder_noEmpty b id h, process_noEmpty b o h⟩

/-! ### Positivity invariant (claim C10) -/

theorem lvlFind_mem (ls : List (Int × Level)) (p : Int) (dq : Level)
    (h : lvlFind ls p = some dq) : (p, dq) ∈ ls := by
  induction ls with
  | nil => simp [lvlFind] at h
  | cons e rest ih =>
    rcases e with ⟨q, dq0⟩
    by_cases hq : q = p
    · rw [lvlFind, if_pos hq] at h
      subst hq
      rcases Option.some.injEq .. ▸ h with rfl
      exact List.mem_cons_self _ _
    · rw [lvlFind, if_neg hq] at h
      exact List.mem_cons_of_mem _ (ih h)

theorem eraseById_subset (dq : Level) (id : Nat) :
    ∀ x ∈ eraseById dq id, x ∈ dq := by
  induction dq with
  | nil => simp [eraseById]
  | cons o rest ih =>
    intro x hx
    simp only [eraseById] at hx
    by_cases ho : o.orderId = id
    · rw [if_pos ho] at hx
      exact List.mem_cons_of_mem _ hx
    · rw [if_neg ho] at hx
      rcases List.mem_cons.mp hx with rfl | hx
      · exact List.mem_cons_self _ _
      · exact List.mem_cons_of_mem _ (ih x hx)

theorem insertLevel_orders_mem (prec : Int → Int → Bool) (ls : List (Int × Level))
    (p : Int) (o : Order) :
    ∀ pl ∈ insertLevel prec ls p o, ∀ x ∈ pl.2,
      (∃ pl0 ∈ ls, x ∈ pl0.2) ∨ x = o := by
  induction ls with
  | nil =>
    intro pl hpl x hx
    rcases List.mem_singleton.mp hpl with rfl
    rcases List.mem_singleton.mp hx with rfl
    exact Or.inr rfl
  | cons e rest ih =>
    rcases e with ⟨q, dq⟩
    intro pl hpl x hx
    simp only [insertLevel] at hpl
    by_cases h1 : prec p q
    · rw [if_pos h1] at hpl
      rcases List.mem_cons.mp hpl with rfl | hpl
      · rcases List.mem_singleton.mp hx with rfl
        exact Or.inr rfl
      · exact Or.inl ⟨pl, hpl, hx⟩
    · rw [if_neg h1] at hpl
      by_cases h2 : q = p
      · rw [if_pos h2] at hpl
        rcases List.mem_cons.mp hpl with rfl | hpl
        · rcases List.mem_append.mp hx with hx | hx
          · exact Or.inl ⟨(q, dq), List.mem_cons_self _ _, hx⟩
          · rcases List.mem_singleton.mp hx with rfl
            exact Or.inr rfl
        · exact Or.inl ⟨pl, List.mem_cons_of_mem _ hpl, hx⟩
      · rw [if_neg h2] at hpl
        rcases List.mem_cons.mp hpl with rfl | hpl
        · exact Or.inl ⟨(q, dq), List.mem_cons_self _ _, hx⟩
        · rcases ih pl hpl x hx with ⟨pl0, hpl0, hx0⟩ | h
          · exact Or.inl ⟨pl0, List.mem_cons_of_mem _ hpl0, hx0⟩
          · exact Or.inr h

theorem addOrder_pos (b : Book) (o : Order) (h : posBook b) :
    posBook (b.addOrder o).2 := by
  by_cases hv1 : o.type = OrderType.Limit ∧ o.price ≤ 0
  · rw [Book.addOrder, if_pos hv1]
    exact h
  · by_cases hv2 : o.quantity ≤ 0
    · rw [Book.addOrder, if_neg hv1, if_pos hv2]
      exact h
    · have hoq : 0 < o.quantity := by omega
      have hop : o.type = OrderType.Limit → 0 < o.price := by
        intro ht
        rcases lt_or_le 0 o.price with hp | hp
        · exact hp
        · exact absurd ⟨ht, hp⟩ hv1
      rcases hside : o.side with _ | _
      · rw [Book.addOrder, if_neg hv1, if_neg hv2, if_pos hside]
        refine ⟨?_, h.2⟩
        intro pl hpl x hx
        rcases insertLevel_orders_mem bidPrec b.bids o.price o pl hpl x hx with ⟨pl0, h0, hx0⟩ | rfl
        · exact h.1 pl0 h0 x hx0
        · exact ⟨hoq, hop⟩
      · rw [Book.addOrder, if_neg hv1, if_neg hv2, if_neg (by rw [hside]; simp)]
        refine ⟨h.1, ?_⟩
        intro pl hpl x hx
        rcases insertLevel_orders_mem askPrec b.asks o.price o pl hpl x hx with ⟨pl0, h0, hx0⟩ | rfl
        · exact h.2 pl0 h0 x hx0
        · exact ⟨hoq, hop⟩

theorem cancelOrder_pos (b : Book) (id : Nat) (h : posBook b) :
    posBook (b.cancelOrder id).2 := by
  rcases hloc : locFind b.locators id with _ | loc
  · rw [Book.cancelOrder, hloc]
    exact h
  · rcases hside : loc.side with _ | _
    · rcases hdq : lvlFind b.bids loc.price with _ | dq
      · simp only [Book.cancelOrder, hloc, hside, hdq, reduceCtorEq, if_true, if_false]
        exact h
      · have hdqmem := lvlFind_mem b.bids loc.price dq hdq
        by_cases hemp : (eraseById dq id).isEmpty
        · simp only [Book.cancelOrder, hloc, hside, hdq, hemp, reduceCtorEq, if_true, if_false]
          exact ⟨fun pl hpl => h.1 pl (lvlErase_subset b.bids loc.price pl hpl), h.2⟩
        · simp only [Book.cancelOrder, hloc, hside, hdq, reduceCtorEq, if_true, if_false,
            Bool.not_eq_true] at hemp ⊢
          rw [hemp]
          simp only [Bool.false_eq_true, if_false]
          refine ⟨?_, h.2⟩
          intro pl hpl x hx
          rcases lvlUpdate_mem b.bids loc.price (eraseById dq id) pl hpl with hm | hm
          · exact h.1 pl hm x hx
          · rw [hm] at hx
            exact h.1 (loc.price, dq) hdqmem x (eraseById_subset dq id x hx)
    · rcases hdq : lvlFind b.asks loc.price with _ | dq
      · simp only [Book.cancelOrder, hloc, hside, hdq, reduceCtorEq, if_true, if_false]
        exact h
      · have hdqmem := lvlFind_mem b.asks loc.price dq hdq
        by_cases hemp : (eraseById dq id).isEmpty
        · simp only [Book.cancelOrder, hloc, hside, hdq, hemp, reduceCtorEq, if_true, if_false]
          exact ⟨h.1, fun pl hpl => h.2 pl (lvlErase_subset b.asks loc.price pl hpl)⟩
        · simp only [Book.cancelOrder, hloc, hside, hdq, reduceCtorEq, if_true, if_false,
            Bool.not_eq_true] at hemp ⊢
          rw [hemp]
          simp only [Bool.false_eq_true, if_false]
          refine ⟨h.1, ?_⟩
          intro pl hpl x hx
          rcases lvlUpdate_mem b.asks loc.price (eraseById dq id) pl hpl with hm | hm
          · exact h.2 pl hm x hx
          · rw [hm] at hx
            exact h.2 (loc.price, dq) hdqmem x (eraseById_subset dq id x hx)

theorem eraseFront_pos (b : Book) (s : Side) (p : Int) (id : Nat) (h : posBook b) :
    posBook (b.eraseFrontAtLevel s p id) := by
  rcases s with _ | _
  · rcases hdq : lvlFind b.bids p with _ | dq
    · simp only [Book.eraseFrontAtLevel, hdq, reduceCtorEq, if_true, if_false]
      exact h
    · rcases dq with _ | ⟨o, rest⟩
      · simp only [Book.eraseFrontAtLevel, hdq, reduceCtorEq, if_true, if_false]
        exact h
      · have hdqmem := lvlFind_mem b.bids p _ hdq
        by_cases ho : o.orderId = id
        · simp only [Book.eraseFrontAtLevel, hdq, ho, reduceCtorEq, if_true, if_false,
            eq_self_iff_true]
          refine ⟨?_, h.2⟩
          intro pl hpl x hx
          rcases lvlUpdate_mem b.bids p rest pl hpl with hm | hm
          · exact h.1 pl hm x hx
          · rw [hm] at hx
            exact h.1 (p, o :: rest) hdqmem x (List.mem_cons_of_mem _ hx)
        · simp only [Book.eraseFrontAtLevel, hdq, ho, reduceCtorEq, if_true, if_false]
          exact h
  · rcases hdq : lvlFind b.asks p with _ | dq
    · simp only [Book.eraseFrontAtLevel, hdq, reduceCtorEq, if_true, if_false]
      exact h
    · rcases dq with _ | ⟨o, rest⟩
      · simp only [Book.eraseFrontAtLevel, hdq, reduceCtorEq, if_true, if_false]
        exact h
      · have hdqmem := lvlFind_mem b.asks p _ hdq
        by_cases ho : o.orderId = id
        · simp only [Book.eraseFrontAtLevel, hdq, ho, reduceCtorEq, if_true, if_false,
            eq_self_iff_true]
          refine ⟨h.1, ?_⟩
          intro pl hpl x hx
          rcases lvlUpdate_mem b.asks p rest pl hpl with hm | hm
          · exact h.2 pl hm x hx
          · rw [hm] at hx
            exact h.2 (p, o :: rest) hdqmem x (List.mem_cons_of_mem _ hx)
        · simp only [Book.eraseFrontAtLevel, hdq, ho, reduceCtorEq, if_true, if_false]
          exact h

theorem process_pos (b : Book) (o : Order) (h : posBook b) :
    posBook (process b o).book := by
  rcases hside : o.side with _ | _
  · simp only [process, hside, reduceCtorEq, if_true, if_false]
    split
    · exact ⟨h.1, matchSide_posLevels o b.asks h.2⟩
    · split
      · exact addOrder_pos _ _ ⟨h.1, matchSide_posLevels o b.asks h.2⟩
      · exact ⟨h.1, matchSide_posLevels o b.asks h.2⟩
  · simp only [process, hside, reduceCtorEq, if_true, if_false]
    split
    · exact ⟨matchSide_posLevels o b.bids h.1, h.2⟩
    · split
      · exact addOrder_pos _ _ ⟨matchSide_posLevels o b.bids h.1, h.2⟩
      · exact ⟨matchSide_posLevels o b.bids h.1, h.2⟩

/-- Claim C10: every order resting in a book reachable through any sequence
of `addOrder`, `cancelOrder`, `eraseFrontAtLevel`, and `process` calls has
strictly positive quantity (and strictly positive price when it is a
Limit): `addOrder` rejects non-positive quantities and the matching loop
removes a maker the instant its quantity reaches zero.  Consequently every
trade `process` emits from such a book has strictly positive quantity. -/
theorem C10_resting_orders_positive (b : Book) (hre : Reach b) :
    posBook b ∧ ∀ (o : Order), ∀ tr ∈ (process b o).trades, 0 < tr.quantity := by
  have hpos : posBook b := by
    induction hre with
    | base => exact ⟨by simp [Book.emptyBook, posLevels], by simp [Book.emptyBook, posLevels]⟩
    | add b0 o0 _ ih => exact addOrder_pos b0 o0 ih
    | cancel b0 id0 _ ih => exact cancelOrder_pos b0 id0 ih
    | eraseFront b0 s0 p0 id0 _ ih => exact eraseFront_pos b0 s0 p0 id0 ih
    | proc b0 o0 _ ih => exact process_pos b0 o0 ih
  refine ⟨hpos, ?_⟩
  intro o tr htr
  rw [process_trades_eq] at htr
  apply matchSide_trade_pos o (contraLevels b o.side) _ tr htr
  intro pl hpl x hx
  rcases hside : o.side with _ | _ <;> rw [hside] at hpl
  · exact (hpos.2 pl hpl x hx).1
  · exact (hpos.1 pl hpl x hx).1

/-! ### Claim C4: what the code actually does on malformed orders -/

/-- Claim C4 fails on the code: `MatchingEngine::process` performs no
validation and never publishes a Reject on the production wiring (the
boolean returned by the defensive `addOrder` call on the residual path is
discarded, matching_engine.cpp line 132).  Evaluating the embedded code at
the failing inputs: a Limit Sell with price 0 — malformed per the spec —
is Acked and TRADES against a resting bid, mutating the book; a Limit Buy
with quantity 0 is Acked, not Rejected. -/
theorem C4_malformed_orders_not_rejected :
    (process (Book.emptyBook.addOrder ⟨1, Side.Buy, OrderType.Limit, 100, 5⟩).2
        ⟨2, Side.Sell, OrderType.Limit, 0, 3⟩).trades = [⟨1, 2, 100, 3⟩] ∧
    (process (Book.emptyBook.addOrder ⟨1, Side.Buy, OrderType.Limit, 100, 5⟩).2
        ⟨2, Side.Sell, OrderType.Limit, 0, 3⟩).events =
      [Event.ack 2, Event.trade 2 ⟨1, 2, 100, 3⟩] ∧
    (process (Book.emptyBook.addOrder ⟨1, Side.Buy, OrderType.Limit, 100, 5⟩).2
        ⟨2, Side.Sell, OrderType.Limit, 0, 3⟩).book ≠
      (Book.emptyBook.addOrder ⟨1, Side.Buy, OrderType.Limit, 100, 5⟩).2 ∧
    (process (Book.emptyBook.addOrder ⟨1, Side.Buy, OrderType.Limit, 100, 5⟩).2
        ⟨3, Side.Buy, OrderType.Limit, 100, 0⟩).events = [Event.ack 3] := by
  decide

/-! ### FIFO within a price level (claim C2) -/

theorem matchLevel_nonpos (tk : Order) (dq : Level) (h : ¬0 < tk.quantity) :
    (matchLevel tk dq).trades = [] ∧ (matchLevel tk dq).removed = [] := by
  cases dq with
  | nil => simp [matchLevel]
  | cons maker rest => simp [matchLevel, h]

theorem matchLevel_removed_subset (tk : Order) (dq : Level) :
    ∀ id ∈ (matchLevel tk dq).removed, id ∈ levelIds dq := by
  intro id hid
  rw [← matchLevel_ids_conserved tk dq]
  exact List.mem_append_left _ hid

theorem matchLevel_levelIds_subset (tk : Order) (dq : Level) :
    ∀ id ∈ levelIds (matchLevel tk dq).level, id ∈ levelIds dq := by
  intro id hid
  rw [← matchLevel_ids_conserved tk dq]
  exact List.mem_append_right _ hid

theorem matchLevel_trade_maker_ids (tk : Order) (dq : Level) :
    ∀ tr ∈ (matchLevel tk dq).trades, tr.makerId ∈ levelIds dq := by
  intro tr htr
  rcases matchLevel_trade_maker tk dq tr htr with ⟨m, hm, h1, _, _⟩
  rw [h1]
  exact List.mem_map_of_mem Order.orderId hm

theorem matchSide_trade_maker_ids (tk : Order) (c : List (Int × Level)) :
    ∀ tr ∈ (matchSide tk c).trades, tr.makerId ∈ sideIds c := by
  intro tr htr
  rcases matchSide_trade_maker tk c tr htr with ⟨pl, hpl, m, hm, h1, _, _⟩
  rw [h1]
  simp only [sideIds, List.mem_flatten]
  exact ⟨levelIds pl.2, List.mem_map_of_mem _ hpl, List.mem_map_of_mem Order.orderId hm⟩

theorem sideIds_append (xs ys : List (Int × Level)) :
    sideIds (xs ++ ys) = sideIds xs ++ sideIds ys := by
  simp [sideIds]

theorem matchLevel_fifo (tk : Order) (l1 l2 l3 : Level) (A B : Order)
    (hnodup : (levelIds (l1 ++ A :: l2 ++ B :: l3)).Nodup)
    (hfill : ∃ tr ∈ (matchLevel tk (l1 ++ A :: l2 ++ B :: l3)).trades,
      tr.makerId = B.orderId) :
    A.orderId ∈ (matchLevel tk (l1 ++ A :: l2 ++ B :: l3)).removed ∧
    A.orderId ∉ levelIds (matchLevel tk (l1 ++ A :: l2 ++ B :: l3)).level ∧
    ∃ u1 trA u2,
      (matchLevel tk (l1 ++ A :: l2 ++ B :: l3)).trades = u1 ++ trA :: u2 ∧
      trA.makerId = A.orderId ∧ trA.quantity = A.quantity ∧
      ∀ tr ∈ u1, tr.makerId ≠ B.orderId := by
  induction l1 generalizing tk with
  | nil =>
    simp only [List.nil_append] at hnodup hfill ⊢
    have hnodup2 : A.orderId ∉ levelIds (l2 ++ B :: l3) ∧
        (levelIds (l2 ++ B :: l3)).Nodup := List.nodup_cons.mp hnodup
    have hBmem : B.orderId ∈ levelIds (l2 ++ B :: l3) := by simp [levelIds]
    have hAB : A.orderId ≠ B.orderId := by
      intro h
      exact hnodup2.1 (h ▸ hBmem)
    by_cases h1 : 0 < tk.quantity
    · by_cases h2 : A.quantity - min tk.quantity A.quantity = 0
      · have hmin : min tk.quantity A.quantity = A.quantity := by omega
        simp only [matchLevel, h1, h2, if_true, if_pos] at hfill ⊢
        refine ⟨List.mem_cons_self _ _, ?_, ?_⟩
        · intro hc
          exact hnodup2.1 (matchLevel_levelIds_subset _ (l2 ++ B :: l3) _ hc)
        · exact ⟨[], ⟨A.orderId, tk.orderId, A.price, min tk.quantity A.quantity⟩,
            (matchLevel { tk with quantity := tk.quantity - min tk.quantity A.quantity }
              (l2 ++ B :: l3)).trades, rfl, rfl, hmin, by simp⟩
      · simp only [matchLevel, h1, h2, if_true, if_neg, if_false] at hfill
        rcases hfill with ⟨tr, htr, hmk⟩
        rcases List.mem_singleton.mp htr with rfl
        exact absurd hmk hAB
    · rcases hfill with ⟨tr, htr, _⟩
      rw [(matchLevel_nonpos tk _ h1).1] at htr
      exact absurd htr (List.not_mem_nil tr)
  | cons m l1t ih =>
    simp only [List.cons_append] at hnodup hfill ⊢
    have hnodup2 : m.orderId ∉ levelIds (l1t ++ A :: l2 ++ B :: l3) ∧
        (levelIds (l1t ++ A :: l2 ++ B :: l3)).Nodup := List.nodup_cons.mp hnodup
    have hBid : B.orderId ∈ levelIds (l1t ++ A :: l2 ++ B :: l3) := by
      simp [levelIds]
    have hmB : m.orderId ≠ B.orderId := by
      intro h
      exact hnodup2.1 (h ▸ hBid)
    by_cases h1 : 0 < tk.quantity
    · by_cases h2 : m.quantity - min tk.quantity m.quantity = 0
      · simp only [matchLevel, h1, h2, if_true, if_pos] at hfill ⊢
        have hfill2 : ∃ tr ∈ (matchLevel
            { tk with quantity := tk.quantity - min tk.quantity m.quantity }
            (l1t ++ A :: l2 ++ B :: l3)).trades, tr.makerId = B.orderId := by
          rcases hfill with ⟨tr, htr, hmk⟩
          rcases List.mem_cons.mp htr with rfl | htr
          · exact absurd hmk hmB
          · exact ⟨tr, htr, hmk⟩
        rcases ih { tk with quantity := tk.quantity - min tk.quantity m.quantity }
            hnodup2.2 hfill2 with ⟨hrem, hnotin, u1, trA, u2, heq, hA, hq, hu1⟩
        refine ⟨List.mem_cons_of_mem _ hrem, hnotin,
          ⟨m.orderId, tk.orderId, m.price, min tk.quantity m.quantity⟩ :: u1,
          trA, u2, ?_, hA, hq, ?_⟩
        · rw [heq, List.cons_append]
        · intro tr htr
          rcases List.mem_cons.mp htr with rfl | htr
          · exact hmB
          · exact hu1 tr htr
      · simp only [matchLevel, h1, h2, if_true, if_neg, if_false] at hfill
        rcases hfill with ⟨tr, htr, hmk⟩
        rcases List.mem_singleton.mp htr with rfl
        exact absurd hmk hmB
    · rcases hfill with ⟨tr, htr, _⟩
      rw [(matchLevel_nonpos tk _ h1).1] at htr
      exact absurd htr (List.not_mem_nil tr)

theorem matchSide_block (tk : Order) (L1 L2 : List (Int × Level)) (p : Int) (dq : Level)
    (hnod : (sideIds (L1 ++ (p, dq) :: L2)).Nodup) :
    ∃ tk1 pre post,
      tk1.orderId = tk.orderId ∧
      (matchSide tk (L1 ++ (p, dq) :: L2)).trades =
        pre ++ (matchLevel tk1 dq).trades ++ post ∧
      (∀ tr ∈ pre, tr.makerId ∉ levelIds dq) ∧
      (∀ tr ∈ post, tr.makerId ∉ levelIds dq) ∧
      (∀ id ∈ (matchLevel tk1 dq).removed,
        id ∉ sideIds (matchSide tk (L1 ++ (p, dq) :: L2)).contra) := by
  induction L1 generalizing tk with
  | nil =>
    simp only [List.nil_append] at hnod ⊢
    rw [sideIds_cons] at hnod
    have hdisj : List.Disjoint (levelIds dq) (sideIds L2) :=
      List.disjoint_of_nodup_append hnod
    have hdqnod : (levelIds dq).Nodup := (List.nodup_append.mp hnod).1
    by_cases hg : 0 < tk.quantity ∧ canMatch tk.side tk.price p tk.type
    · by_cases he : (matchLevel tk dq).level.isEmpty
      · simp only [matchSide, if_pos hg, if_pos he]
        refine ⟨tk, [], (matchSide (matchLevel tk dq).taker L2).trades, rfl, by simp, ?_, ?_, ?_⟩
        · intro tr htr
          exact absurd htr (List.not_mem_nil tr)
        · intro tr htr hdq
          exact hdisj hdq (matchSide_trade_maker_ids _ L2 tr htr)
        · intro id hid hmem
          have hdqid : id ∈ levelIds dq := matchLevel_removed_subset tk dq id hid
          exact hdisj hdqid (matchSide_contra_ids_subset _ L2 _ hmem)
      · simp only [matchSide, if_pos hg, if_neg he]
        refine ⟨tk, [], [], rfl, by simp, ?_, ?_, ?_⟩
        · intro tr htr
          exact absurd htr (List.not_mem_nil tr)
        · intro tr htr
          exact absurd htr (List.not_mem_nil tr)
        · intro id hid hmem
          rw [sideIds_cons] at hmem
          have hconsv := matchLevel_ids_conserved tk dq
          rcases List.mem_append.mp hmem with hmem | hmem
          · have hnodsplit : (levelIds dq).Nodup := hdqnod
            rw [← hconsv] at hnodsplit
            exact List.disjoint_of_nodup_append hnodsplit hid hmem
          · exact hdisj (matchLevel_removed_subset tk dq id hid) hmem
    · simp only [matchSide, if_neg hg]
      refine ⟨{ tk with quantity := 0 }, [], [], rfl, ?_, ?_, ?_, ?_⟩
      · rw [(matchLevel_nonpos _ dq (by simp)).1]
        simp
      · intro tr htr
        exact absurd htr (List.not_mem_nil tr)
      · intro tr htr
        exact absurd htr (List.not_mem_nil tr)
      · intro id hid
        rw [(matchLevel_nonpos _ dq (by simp)).2] at hid
        exact absurd hid (List.not_mem_nil id)
  | cons e L1t ih =>
    rcases e with ⟨q, eq0⟩
    simp only [List.cons_append] at hnod ⊢
    rw [sideIds_cons] at hnod
    have hdisj : List.Disjoint (levelIds eq0) (sideIds (L1t ++ (p, dq) :: L2)) :=
      List.disjoint_of_nodup_append hnod
    have hrestnod : (sideIds (L1t ++ (p, dq) :: L2)).Nodup :=
      (List.nodup_append.mp hnod).2.1
    have hdqsub : ∀ x ∈ levelIds dq, x ∈ sideIds (L1t ++ (p, dq) :: L2) := by
      intro x hx
      rw [sideIds_append, sideIds_cons]
      exact List.mem_append_right _ (List.mem_append_left _ hx)
    by_cases hg : 0 < tk.quantity ∧ canMatch tk.side tk.price q tk.type
    · by_cases he : (matchLevel tk eq0).level.isEmpty
      · simp only [matchSide, if_pos hg, if_pos he]
        rcases ih (matchLevel tk eq0).taker hrestnod with
          ⟨tk1, pre, post, hid1, heq, hpre, hpost, hgone⟩
        refine ⟨tk1, (matchLevel tk eq0).trades ++ pre, post,
          hid1.trans (matchLevel_taker_fields tk eq0).1, ?_, ?_, hpost, hgone⟩
        · rw [heq]
          simp [List.append_assoc]
        · intro tr htr
          rcases List.mem_append.mp htr with htr | htr
          · intro hdq
            exact hdisj (matchLevel_trade_maker_ids tk eq0 tr htr) (hdqsub _ hdq)
          · exact hpre tr htr
      · simp only [matchSide, if_pos hg, if_neg he]
        refine ⟨{ tk with quantity := 0 }, (matchLevel tk eq0).trades, [], rfl, ?_, ?_, ?_, ?_⟩
        · rw [(matchLevel_nonpos _ dq (by simp)).1]
          simp
        · intro tr htr hdq
          exact hdisj (matchLevel_trade_maker_ids tk eq0 tr htr) (hdqsub _ hdq)
        · intro tr htr
          exact absurd htr (List.not_mem_nil tr)
        · intro id hid
          rw [(matchLevel_nonpos _ dq (by simp)).2] at hid
          exact absurd hid (List.not_mem_nil id)
    · simp only [matchSide, if_neg hg]
      refine ⟨{ tk with quantity := 0 }, [], [], rfl, ?_, ?_, ?_, ?_⟩
      · rw [(matchLevel_nonpos _ dq (by simp)).1]
        simp
      · intro tr htr
        exact absurd htr (List.not_mem_nil tr)
      · intro tr htr
        exact absurd htr (List.not_mem_nil tr)
      · intro id hid
        rw [(matchLevel_nonpos _ dq (by simp)).2] at hid
        exact absurd hid (List.not_mem_nil id)

/-- Claim C2: FIFO within a price level.  For two orders A then B resting
at the same `(side, price)` — A nearer the front of the level's queue — any
`process` call that fills any part of B has already consumed A's quantity
entirely (a single trade for all of A's remaining quantity, placed before
every trade of B in the trade sequence) and removed A from the book; and
`addOrder` always appends a newly accepted order at the tail of its level.
The id-uniqueness hypothesis is the spec's order-id protocol. -/
theorem C2_fifo_within_level (b : Book) (o A B : Order) (p : Int)
    (l1 l2 l3 : Level) (L1 L2 : List (Int × Level))
    (hdec : contraLevels b o.side = L1 ++ (p, l1 ++ A :: l2 ++ B :: l3) :: L2)
    (hnod : (sideIds (contraLevels b o.side)).Nodup)
    (hfill : ∃ tr ∈ (process b o).trades, tr.makerId = B.orderId) :
    (∃ u1 trA u2, (process b o).trades = u1 ++ trA :: u2 ∧
       trA.makerId = A.orderId ∧ trA.quantity = A.quantity ∧
       ∀ tr ∈ u1, tr.makerId ≠ B.orderId) ∧
    A.orderId ∉ sideIds (contraLevels (process b o).book o.side) ∧
    (∀ (b2 : Book) (o2 : Order),
      sortedPrec (precOf o2.side) (sideLevels b2 o2.side) →
      (b2.addOrder o2).1 = true →
      lvlFindSide (b2.addOrder o2).2 o2.side o2.price =
        some ((lvlFindSide b2 o2.side o2.price).getD [] ++ [o2])) := by
  have hmain := process_trades_eq b o
  rw [hdec] at hmain hnod
  rcases matchSide_block o L1 L2 p (l1 ++ A :: l2 ++ B :: l3) hnod with
    ⟨tk1, pre, post, hid1, heq, hpre, hpost, hgone⟩
  have hBdq : B.orderId ∈ levelIds (l1 ++ A :: l2 ++ B :: l3) := by
    simp [levelIds]
  have hfb : ∃ tr ∈ (matchLevel tk1 (l1 ++ A :: l2 ++ B :: l3)).trades,
      tr.makerId = B.orderId := by
    rcases hfill with ⟨tr, htr, hmk⟩
    rw [hmain, heq] at htr
    rcases List.mem_append.mp htr with htr2 | htr2
    · rcases List.mem_append.mp htr2 with htr3 | htr3
      · exact absurd (by rw [hmk]; exact hBdq) (hpre tr htr3)
      · exact ⟨tr, htr3, hmk⟩
    · exact absurd (by rw [hmk]; exact hBdq) (hpost tr htr2)
  have hdqnod : (levelIds (l1 ++ A :: l2 ++ B :: l3)).Nodup := by
    rw [sideIds_append, sideIds_cons] at hnod
    exact (List.nodup_append.mp ((List.nodup_append.mp hnod).2.1)).1
  rcases matchLevel_fifo tk1 l1 l2 l3 A B hdqnod hfb with
    ⟨hrem, hnotin, u1b, trA, u2b, heqb, hA, hq, hu1b⟩
  refine ⟨⟨pre ++ u1b, trA, u2b ++ post, ?_, hA, hq, ?_⟩, ?_, ?_⟩
  · rw [hmain, heq, heqb]
    simp [List.append_assoc]
  · intro tr htr
    rcases List.mem_append.mp htr with htr2 | htr2
    · intro hmk
      exact (hpre tr htr2) (by rw [hmk]; exact hBdq)
    · exact hu1b tr htr2
  · have hcontra := process_contra_eq b o
    rw [hdec] at hcontra
    rw [hcontra]
    exact hgone A.orderId hrem
  · intro b2 o2 hs ha
    exact (addOrder_level_shape b2 o2 hs ha).1

/-! ### SPSC ring capacity contract (claim C9) -/

theorem normLoopAux_spec : ∀ (d n p1 j : Nat), n - p1 ≤ d → p1 + 1 = 2 ^ j →
    n ≤ normLoopAux n p1 ∧
    (∃ k, j ≤ k ∧ normLoopAux n p1 = 2 ^ k) ∧
    (∀ i, j ≤ i → 2 ^ i < normLoopAux n p1 → 2 ^ i < n) := by
  intro d
  induction d with
  | zero =>
    intro n p1 j hd hp
    have hnp : ¬p1 + 1 < n := by omega
    rw [normLoopAux, if_neg hnp]
    refine ⟨by omega, ⟨j, le_refl j, hp⟩, ?_⟩
    intro i hji hlt
    rw [hp] at hlt
    have : 2 ^ j ≤ 2 ^ i := Nat.pow_le_pow_right (by norm_num) hji
    omega
  | succ d ih =>
    intro n p1 j hd hp
    by_cases h : p1 + 1 < n
    · rw [normLoopAux, if_pos h]
      have hrec := ih n (2 * p1 + 1) (j + 1) (by omega) (by rw [pow_succ]; omega)
      refine ⟨hrec.1, ?_, ?_⟩
      · rcases hrec.2.1 with ⟨k, hk, hval⟩
        exact ⟨k, by omega, hval⟩
      · intro i hji hlt
        rcases Nat.eq_or_lt_of_le hji with rfl | hji2
        · rw [← hp]
          exact h
        · exact hrec.2.2 i (by omega) hlt
    · rw [normLoopAux, if_neg h]
      refine ⟨by omega, ⟨j, le_refl j, hp⟩, ?_⟩
      intro i hji hlt
      rw [hp] at hlt
      have : 2 ^ j ≤ 2 ^ i := Nat.pow_le_pow_right (by norm_num) hji
      omega

theorem normalizeCapacity_spec (n : Nat) :
    (∃ k, normalizeCapacity n = 2 ^ k) ∧
    n ≤ normalizeCapacity n ∧
    2 ≤ normalizeCapacity n ∧
    ∀ m, n ≤ m → 2 ≤ m → (∃ k, m = 2 ^ k) → normalizeCapacity n ≤ m := by
  have hspec := normLoopAux_spec (if n < 2 then 2 else n) (if n < 2 then 2 else n) 0 0
    (le_refl _) (by norm_num)
  rw [normalizeCapacity]
  have hn2 : n ≤ (if n < 2 then 2 else n) := by
    split <;> omega
  have h2n : 2 ≤ (if n < 2 then 2 else n) := by
    split <;> omega
  refine ⟨?_, by omega, by omega, ?_⟩
  · rcases hspec.2.1 with ⟨k, _, hval⟩
    exact ⟨k, hval⟩
  · intro m hm h2m ⟨i, hi⟩
    by_contra hlt
    push_neg at hlt
    rw [hi] at hlt
    have := hspec.2.2 i (Nat.zero_le i) hlt
    have hmax : (if n < 2 then 2 else n) ≤ m := by
      split <;> omega
    omega

theorem pushAll_run (k : Nat) : ∀ (vs : List Nat) (r : SpscRing Nat),
    r.capacity = 2 ^ k → r.mask = 2 ^ k - 1 → r.tail = 0 →
    r.head + vs.length < 2 ^ k →
    (pushAll r vs).1 = List.replicate vs.length true ∧
    (pushAll r vs).2.head = r.head + vs.length ∧
    (pushAll r vs).2.tail = 0 ∧
    (pushAll r vs).2.capacity = r.capacity ∧
    (pushAll r vs).2.mask = r.mask := by
  intro vs
  induction vs with
  | nil =>
    intro r hc hm ht hlen
    simp [pushAll, ht]
  | cons v rest ih =>
    intro r hc hm ht hlen
    have hnext : (r.head + 1) &&& r.mask = r.head + 1 := by
      rw [hm, Nat.and_pow_two_sub_one_eq_mod]
      exact Nat.mod_eq_of_lt (by simp at hlen; omega)
    have hpush : tryPush r v = (true,
        { r with storage := r.storage.set r.head (some v), head := r.head + 1 }) := by
      rw [tryPush]
      simp only [hnext]
      rw [if_neg (by rw [ht]; omega)]
    have hrec := ih { r with storage := r.storage.set r.head (some v), head := r.head + 1 }
      hc hm ht (by simp at hlen ⊢; omega)
    rw [pushAll, hpush]
    simp only [List.length_cons, List.replicate_succ]
    refine ⟨?_, ?_, hrec.2.2.1, hrec.2.2.2.1, hrec.2.2.2.2⟩
    · rw [hrec.1]
    · rw [hrec.2.1]
      show r.head + 1 + rest.length = r.head + (v :: rest).length
      rw [List.length_cons]
      omega

/-- Claim C9: the ring constructed for a desired minimum `n` has capacity
`C = normalizeCapacity n`, the smallest power of two that is at least `n`
and at least 2, and usable capacity `C - 1`: from empty, `C - 1`
consecutive `tryPush` calls all succeed, the next `tryPush` is refused and
leaves the ring unchanged, and after one successful `tryPop` a subsequent
`tryPush` succeeds again. -/
theorem C9_ring_capacity_contract (n : Nat) (vs : List Nat) (v w : Nat)
    (hlen : vs.length = normalizeCapacity n - 1) :
    (∃ k, normalizeCapacity n = 2 ^ k) ∧
    n ≤ normalizeCapacity n ∧
    2 ≤ normalizeCapacity n ∧
    (∀ m, n ≤ m → 2 ≤ m → (∃ k, m = 2 ^ k) → normalizeCapacity n ≤ m) ∧
    (mkRing Nat n).capacity = normalizeCapacity n ∧
    usableCapacity (mkRing Nat n) = normalizeCapacity n - 1 ∧
    (pushAll (mkRing Nat n) vs).1 = List.replicate (normalizeCapacity n - 1) true ∧
    (tryPush (pushAll (mkRing Nat n) vs).2 v).1 = false ∧
    (tryPush (pushAll (mkRing Nat n) vs).2 v).2 = (pushAll (mkRing Nat n) vs).2 ∧
    (tryPop (pushAll (mkRing Nat n) vs).2).1 = true ∧
    (tryPush (tryPop (pushAll (mkRing Nat n) vs).2).2.1 w).1 = true := by
  rcases normalizeCapacity_spec n with ⟨⟨k, hk⟩, hn, h2, hmin⟩
  have hcap : (mkRing Nat n).capacity = normalizeCapacity n := rfl
  have hmsk : (mkRing Nat n).mask = normalizeCapacity n - 1 := rfl
  have hhd : (mkRing Nat n).head = 0 := rfl
  have htl : (mkRing Nat n).tail = 0 := rfl
  have hk1 : 1 ≤ 2 ^ k := Nat.one_le_two_pow
  have hk2 : 2 ≤ 2 ^ k := by omega
  have hrun := pushAll_run k vs (mkRing Nat n) (by rw [hcap, hk]) (by rw [hmsk, hk]) htl
    (by rw [hhd, hlen, hk]; omega)
  have hhead : (pushAll (mkRing Nat n) vs).2.head = 2 ^ k - 1 := by
    rw [hrun.2.1, hhd, hlen, hk]
    omega
  have htail : (pushAll (mkRing Nat n) vs).2.tail = 0 := hrun.2.2.1
  have hmask : (pushAll (mkRing Nat n) vs).2.mask = 2 ^ k - 1 := by
    rw [hrun.2.2.2.2, hmsk, hk]
  have hfullnext : ((pushAll (mkRing Nat n) vs).2.head + 1) &&&
      (pushAll (mkRing Nat n) vs).2.mask = 0 := by
    rw [hhead, hmask, Nat.sub_add_cancel hk1, Nat.and_pow_two_sub_one_eq_mod]
    exact Nat.mod_self _
  have hfull : tryPush (pushAll (mkRing Nat n) vs).2 v =
      (false, (pushAll (mkRing Nat n) vs).2) := by
    rw [tryPush]
    simp only [hfullnext]
    rw [if_pos htail.symm]
  have hpop : tryPop (pushAll (mkRing Nat n) vs).2 =
      (true, { (pushAll (mkRing Nat n) vs).2 with
        storage := (pushAll (mkRing Nat n) vs).2.storage.set
          (pushAll (mkRing Nat n) vs).2.tail none,
        tail := ((pushAll (mkRing Nat n) vs).2.tail + 1) &&&
          (pushAll (mkRing Nat n) vs).2.mask },
       (pushAll (mkRing Nat n) vs).2.storage.getD (pushAll (mkRing Nat n) vs).2.tail none) := by
    rw [tryPop, if_neg (by rw [htail, hhead]; omega)]
  have hpoptail : ((pushAll (mkRing Nat n) vs).2.tail + 1) &&&
      (pushAll (mkRing Nat n) vs).2.mask = 1 := by
    rw [htail, hmask, Nat.and_pow_two_sub_one_eq_mod]
    exact Nat.mod_eq_of_lt (by omega)
  refine ⟨⟨k, hk⟩, hn, h2, hmin, hcap, rfl,
    by rw [hrun.1, hlen], by rw [hfull], by rw [hfull], by rw [hpop], ?_⟩
  rw [hpop, tryPush]
  simp only [hpoptail, hfullnext]
  rw [if_neg (by omega)]

/-! ### Concrete witnesses -/

theorem C1_witness :
    (∀ tr ∈ (process (Book.emptyBook.addOrder ⟨1, Side.Buy, OrderType.Limit, 100, 5⟩).2
        ⟨2, Side.Sell, OrderType.Limit, 100, 3⟩).trades,
      ∃ m, restingIn (Book.emptyBook.addOrder ⟨1, Side.Buy, OrderType.Limit, 100, 5⟩).2 m ∧
        tr.makerId = m.orderId ∧ tr.price = m.price ∧ tr.takerId = 2) ∧
    (∀ id t, Event.trade id t ∈
        (process (Book.emptyBook.addOrder ⟨1, Side.Buy, OrderType.Limit, 100, 5⟩).2
          ⟨2, Side.Sell, OrderType.Limit, 100, 3⟩).events →
      id = 2 ∧ t ∈ (process (Book.emptyBook.addOrder ⟨1, Side.Buy, OrderType.Limit, 100, 5⟩).2
        ⟨2, Side.Sell, OrderType.Limit, 100, 3⟩).trades) :=
  C1_trade_price_is_makers_price
    (Book.emptyBook.addOrder ⟨1, Side.Buy, OrderType.Limit, 100, 5⟩).2
    ⟨2, Side.Sell, OrderType.Limit, 100, 3⟩

theorem C2_witness :
    (∃ u1 trA u2,
      (process (⟨[], [(100, [⟨1, Side.Sell, OrderType.Limit, 100, 2⟩,
          ⟨2, Side.Sell, OrderType.Limit, 100, 2⟩])],
          [(1, ⟨Side.Sell, 100⟩), (2, ⟨Side.Sell, 100⟩)]⟩ : Book)
        ⟨3, Side.Buy, OrderType.Limit, 100, 3⟩).trades = u1 ++ trA :: u2 ∧
      trA.makerId = 1 ∧ trA.quantity = 2 ∧ ∀ tr ∈ u1, tr.makerId ≠ 2) ∧
    1 ∉ sideIds (contraLevels
      (process (⟨[], [(100, [⟨1, Side.Sell, OrderType.Limit, 100, 2⟩,
          ⟨2, Side.Sell, OrderType.Limit, 100, 2⟩])],
          [(1, ⟨Side.Sell, 100⟩), (2, ⟨Side.Sell, 100⟩)]⟩ : Book)
        ⟨3, Side.Buy, OrderType.Limit, 100, 3⟩).book Side.Buy) := by
  have h := C2_fifo_within_level
    (⟨[], [(100, [⟨1, Side.Sell, OrderType.Limit, 100, 2⟩,
        ⟨2, Side.Sell, OrderType.Limit, 100, 2⟩])],
        [(1, ⟨Side.Sell, 100⟩), (2, ⟨Side.Sell, 100⟩)]⟩ : Book)
    ⟨3, Side.Buy, OrderType.Limit, 100, 3⟩
    ⟨1, Side.Sell, OrderType.Limit, 100, 2⟩
    ⟨2, Side.Sell, OrderType.Limit, 100, 2⟩
    100 [] [] [] [] []
    (by decide) (by decide) (by decide)
  exact ⟨h.1, h.2.1⟩

theorem C3_witness :
    (process (Book.emptyBook.addOrder ⟨1, Side.Sell, OrderType.Limit, 101, 2⟩).2
        ⟨3, Side.Buy, OrderType.Market, 0, 5⟩).residual.quantity = 0 ∧
    3 ∉ bookIds (process (Book.emptyBook.addOrder ⟨1, Side.Sell, OrderType.Limit, 101, 2⟩).2
        ⟨3, Side.Buy, OrderType.Market, 0, 5⟩).book ∧
    locFind (process (Book.emptyBook.addOrder ⟨1, Side.Sell, OrderType.Limit, 101, 2⟩).2
        ⟨3, Side.Buy, OrderType.Market, 0, 5⟩).book.locators 3 = none ∧
    (process (Book.emptyBook.addOrder ⟨1, Side.Sell, OrderType.Limit, 101, 2⟩).2
        ⟨3, Side.Buy, OrderType.Market, 0, 5⟩).events =
      Event.ack 3 ::
        (process (Book.emptyBook.addOrder ⟨1, Side.Sell, OrderType.Limit, 101, 2⟩).2
          ⟨3, Side.Buy, OrderType.Market, 0, 5⟩).trades.map (fun t => Event.trade 3 t) :=
  C3_market_orders_never_rest
    (Book.emptyBook.addOrder ⟨1, Side.Sell, OrderType.Limit, 101, 2⟩).2
    ⟨3, Side.Buy, OrderType.Market, 0, 5⟩
    (by decide) (by decide) (by decide)

theorem C5_witness :
    ((Book.emptyBook.addOrder ⟨1, Side.Buy, OrderType.Limit, 100, 5⟩).2.addOrder
      ⟨2, Side.Buy, OrderType.Limit, 100, 3⟩).1 = true ∧
    lvlFindSide ((Book.emptyBook.addOrder ⟨1, Side.Buy, OrderType.Limit, 100, 5⟩).2.addOrder
        ⟨2, Side.Buy, OrderType.Limit, 100, 3⟩).2 Side.Buy 100 =
      some ((lvlFindSide (Book.emptyBook.addOrder ⟨1, Side.Buy, OrderType.Limit, 100, 5⟩).2
        Side.Buy 100).getD [] ++ [⟨2, Side.Buy, OrderType.Limit, 100, 3⟩]) ∧
    locFind ((Book.emptyBook.addOrder ⟨1, Side.Buy, OrderType.Limit, 100, 5⟩).2.addOrder
      ⟨2, Side.Buy, OrderType.Limit, 100, 3⟩).2.locators 2 = some ⟨Side.Buy, 100⟩ ∧
    (((Book.emptyBook.addOrder ⟨1, Side.Buy, OrderType.Limit, 100, 5⟩).2.addOrder
      ⟨2, Side.Buy, OrderType.Limit, 100, 3⟩).2.locators.map Prod.fst).count 2 = 1 := by
  have h := C5_addOrder_contract
    (Book.emptyBook.addOrder ⟨1, Side.Buy, OrderType.Limit, 100, 5⟩).2
    ⟨2, Side.Buy, OrderType.Limit, 100, 3⟩
    (by decide) (by decide)
  exact ⟨by decide, (h.2.2 (by decide)).1, (h.2.2 (by decide)).2.2.2.1,
    (h.2.2 (by decide)).2.2.2.2⟩

theorem C6_witness :
    ((⟨[(50, [⟨1, Side.Buy, OrderType.Limit, 50, 10⟩])], [],
        [(1, ⟨Side.Buy, 50⟩)]⟩ : Book).cancelOrder 1).1 = true ∧
    locFind ((⟨[(50, [⟨1, Side.Buy, OrderType.Limit, 50, 10⟩])], [],
        [(1, ⟨Side.Buy, 50⟩)]⟩ : Book).cancelOrder 1).2.locators 1 = none ∧
    ((⟨[(50, [⟨1, Side.Buy, OrderType.Limit, 50, 10⟩])], [],
        [(1, ⟨Side.Buy, 50⟩)]⟩ : Book).cancelOrder 1).2.cancelOrder 1 =
      (false, ((⟨[(50, [⟨1, Side.Buy, OrderType.Limit, 50, 10⟩])], [],
        [(1, ⟨Side.Buy, 50⟩)]⟩ : Book).cancelOrder 1).2) := by
  have h := (C6_cancelOrder_contract
    (⟨[(50, [⟨1, Side.Buy, OrderType.Limit, 50, 10⟩])], [],
        [(1, ⟨Side.Buy, 50⟩)]⟩ : Book) 1).2
    ⟨Side.Buy, 50⟩ [⟨1, Side.Buy, OrderType.Limit, 50, 10⟩]
    (by decide) (by decide)
  exact ⟨h.1, h.2.2.2.2.2.1, h.2.2.2.2.2.2.2⟩

theorem C7_witness :
    noEmptyLevels (Book.emptyBook.addOrder ⟨1, Side.Buy, OrderType.Limit, 10, 5⟩).2 ∧
    noEmptyLevels (Book.emptyBook.cancelOrder 7).2 ∧
    noEmptyLevels (process Book.emptyBook ⟨1, Side.Buy, OrderType.Limit, 10, 5⟩).book :=
  C7_no_empty_levels_preserved Book.emptyBook ⟨1, Side.Buy, OrderType.Limit, 10, 5⟩ 7
    (by decide)

theorem C9_witness :
    2 ≤ normalizeCapacity 3 ∧
    (pushAll (mkRing Nat 3) [10, 20, 30]).1 = List.replicate (normalizeCapacity 3 - 1) true ∧
    (tryPush (pushAll (mkRing Nat 3) [10, 20, 30]).2 40).1 = false ∧
    (tryPop (pushAll (mkRing Nat 3) [10, 20, 30]).2).1 = true ∧
    (tryPush (tryPop (pushAll (mkRing Nat 3) [10, 20, 30]).2).2.1 50).1 = true := by
  have e3 : normLoopAux 3 3 = 4 := by
    rw [normLoopAux]
    norm_num
  have e1 : normLoopAux 3 1 = 4 := by
    rw [normLoopAux]
    norm_num [e3]
  have e0 : normLoopAux 3 0 = 4 := by
    rw [normLoopAux]
    norm_num [e1]
  have h34 : normalizeCapacity 3 = 4 := by
    rw [normalizeCapacity]
    norm_num [e0]
  have happ := C9_ring_capacity_contract 3 [10, 20, 30] 40 50 (by rw [h34]; decide)
  exact ⟨happ.2.2.1, happ.2.2.2.2.2.2.1, happ.2.2.2.2.2.2.2.1,
    happ.2.2.2.2.2.2.2.2.2.1, happ.2.2.2.2.2.2.2.2.2.2⟩

theorem C10_witness :
    posBook (process (Book.emptyBook.addOrder ⟨1, Side.Sell, OrderType.Limit, 100, 5⟩).2
      ⟨2, Side.Buy, OrderType.Limit, 100, 3⟩).book ∧
    ∀ (o : Order), ∀ tr ∈ (process
      (process (Book.emptyBook.addOrder ⟨1, Side.Sell, OrderType.Limit, 100, 5⟩).2
        ⟨2, Side.Buy, OrderType.Limit, 100, 3⟩).book o).trades, 0 < tr.quantity :=
  C10_resting_orders_positive
    (process (Book.emptyBook.addOrder ⟨1, Side.Sell, OrderType.Limit, 100, 5⟩).2
      ⟨2, Side.Buy, OrderType.Limit, 100, 3⟩).book
    (Reach.proc _ _ (Reach.add _ _ Reach.base))

end OB